import Mathlib

/-! jetbrains-offline: build-range matching, mirror layout and index generation.

A shallow embedding of the Go sources
`internal/models/types.go`, `internal/downloader/download.go` and
`internal/xml/generate.go`, together with models of the Go standard-library
functions they call (`strings.TrimSuffix`, `strconv.Atoi`,
`strconv.ParseFloat`, `math.Floor`, the `int(float64)` conversion,
`filepath.Join`), followed by the properties proved about them.

Go strings are modelled by `String`; all the characters the code inspects are
ASCII, so working on characters instead of bytes does not change a result.
The width of `int` and the result of an unrepresentable `int(float64)`
conversion are parameters (`Arch`); paths use the Unix separator.
-/

namespace JetbrainsOffline

/-! ## Data model (`internal/models/types.go`, `internal/downloader/download.go`) -/

/-- The Go struct `models.BuildRange`. -/
structure BuildRange where
  SinceBuild : String
  UntilBuild : String
deriving DecidableEq

/-- The Go struct `models.IntelliJ`. -/
structure IntelliJ where
  Builds : List BuildRange

set_option linter.dupNamespace false in
/-- The Go struct `models.Version`. -/
structure Version where
  Version : String

/-- The Go struct `models.Plugin`. -/
structure Plugin where
  ID : String
  Versions : List Version

/-- The Go struct `models.Config`. -/
structure Config where
  IntelliJ : IntelliJ
  Plugins : List Plugin

/-- The Go struct `models.PluginMetadata`. -/
structure PluginMetadata where
  ID : String
  Version : String
  SinceBuild : String
  UntilBuild : String
  Description : String
deriving DecidableEq

/-- The Go struct `downloader.IdeaVersion`. -/
structure IdeaVersion where
  SinceBuild : String
  UntilBuild : String
deriving DecidableEq

/-- The Go struct `downloader.PluginVersion`. -/
structure PluginVersion where
  Version : String
  URL : String
  IdeaVersion : IdeaVersion
  Description : String
deriving DecidableEq

/-! ## Go `strings` -/

/-- Go `strings.HasSuffix`:
`len(s) >= len(suffix) && s[len(s)-len(suffix):] == suffix`. -/
def HasSuffix (s suffix : String) : Bool :=
  decide (suffix.data.length ≤ s.data.length) &&
    decide (s.data.drop (s.data.length - suffix.data.length) = suffix.data)

/-- Go `strings.TrimSuffix`: `s` without the trailing `suffix` when it has it,
`s` itself otherwise. -/
def TrimSuffix (s suffix : String) : String :=
  if HasSuffix s suffix then
    String.mk (s.data.take (s.data.length - suffix.data.length))
  else s

/-! ## Go `strconv` errors and machine integers -/

/-- The two errors a `strconv.NumError` wraps. -/
inductive NumError where
  | ErrSyntax
  | ErrRange
deriving DecidableEq

/-- A `float64`, by its exact value: `finite neg m e` is `(-1)^neg * m * 2^e`. -/
inductive Float64 where
  | finite (neg : Bool) (mant : Nat) (exp : Int)
  | inf (neg : Bool)
  | nan
deriving DecidableEq

/-- What the Go specification leaves to the implementation: the width of `int`
(32 or 64 bits) and the result of converting to `int` a `float64` that `int`
cannot represent. -/
structure Arch where
  intSize : Nat
  intSize_ok : intSize = 32 ∨ intSize = 64
  floatToIntOverflow : Float64 → Int

/-- A 64-bit target on which an unrepresentable conversion yields the least
`int64` (the behaviour of amd64). -/
def amd64 : Arch := ⟨64, Or.inr rfl, fun _ => -(2 ^ 63)⟩

/-- The value of the decimal digit `c`, as Go computes it: `c - '0'`. -/
def digitVal (c : Char) : Nat := c.toNat - 48

/-- The value of a string of decimal digits read most significant first,
continuing from the accumulator `acc`. -/
def digitsValue : List Char → Nat → Nat
  | [], acc => acc
  | c :: cs, acc => digitsValue cs (acc * 10 + digitVal c)

/-- The loop of Go `strconv.ParseUint(s, 10, bitSize)`, with `maxVal = 2^bitSize - 1`:
a character that is not a digit is a syntax error with value 0, a value that
leaves the range stops the loop with `maxVal` and a range error. -/
def parseUintLoop (maxVal : Nat) : List Char → Nat → Nat × Option NumError
  | [], n => (n, none)
  | c :: cs, n =>
    if c.isDigit then
      if n ≥ (2 ^ 64 - 1) / 10 + 1 then (maxVal, some .ErrRange)
      else if n * 10 + digitVal c > maxVal then (maxVal, some .ErrRange)
      else parseUintLoop maxVal cs (n * 10 + digitVal c)
    else (0, some .ErrSyntax)

/-- Go `strconv.ParseUint(s, 10, bitSize)`. -/
def ParseUint (bitSize : Nat) (s : List Char) : Nat × Option NumError :=
  match s with
  | [] => (0, some .ErrSyntax)
  | _ => parseUintLoop (2 ^ bitSize - 1) s 0

/-- Go `strconv.ParseInt(s, 10, bitSize)`: an optional sign, then `ParseUint`;
a syntax error gives 0, a value out of range is clamped to the nearest bound. -/
def ParseInt (bitSize : Nat) (s : List Char) : Int × Option NumError :=
  match s with
  | [] => (0, some .ErrSyntax)
  | c :: cs =>
    let neg := decide (c = '-')
    let body := if c = '+' ∨ c = '-' then cs else c :: cs
    match ParseUint bitSize body with
    | (_, some .ErrSyntax) => (0, some .ErrSyntax)
    | (un, _) =>
      let cutoff : Nat := 2 ^ (bitSize - 1)
      if !neg && decide (un ≥ cutoff) then ((cutoff : Int) - 1, some .ErrRange)
      else if neg && decide (un > cutoff) then (-(cutoff : Int), some .ErrRange)
      else (if neg then -(un : Int) else (un : Int), none)

/-- Go `strconv.Atoi`: `ParseInt(s, 10, 0)` converted to `int` (its fast path for
short strings computes the same result). -/
def Atoi (a : Arch) (s : String) : Int × Option NumError :=
  ParseInt a.intSize s.data

/-! ## Go `strconv.ParseFloat` -/

/-- Round the non-negative rational `num / den` to the nearest integer, ties to
the even one. -/
def roundHalfEven (num den : Nat) : Nat :=
  let q := num / den
  let r := num % den
  if 2 * r < den then q
  else if den < 2 * r then q + 1
  else if q % 2 = 0 then q else q + 1

/-- Whether `2^l ≤ num / den`. -/
def geTwoPow (num den : Nat) (l : Int) : Bool :=
  if 0 ≤ l then decide (den * 2 ^ l.toNat ≤ num) else decide (den ≤ num * 2 ^ (-l).toNat)

/-- The loop of `natLog2`; `fuel` bounds the number of halvings. -/
def log2Loop : Nat → Nat → Nat
  | 0, _ => 0
  | fuel + 1, n => if n < 2 then 0 else log2Loop fuel (n / 2) + 1

/-- The integer `floor (log2 n)` for `n > 0` (and `0` for `n = 0`). -/
def natLog2 (n : Nat) : Nat := log2Loop n n

/-- The integer `floor (log2 (num / den))` for `num, den > 0`. -/
def floorLog2 (num den : Nat) : Int :=
  let l : Int := (natLog2 num : Int) - (natLog2 den : Int)
  if geTwoPow num den l then l else l - 1

/-- The `float64` nearest to `(-1)^neg * num / den` under IEEE 754
round-to-nearest-even (53-bit significand, least exponent of the unit in the
last place `-1074`), and whether the rounded value overflows to infinity. -/
def roundFloat64 (neg : Bool) (num den : Nat) : Float64 × Bool :=
  if num = 0 then (.finite neg 0 0, false)
  else
    let e : Int := max (floorLog2 num den - 52) (-1074)
    let m : Nat :=
      if 0 ≤ e then roundHalfEven num (den * 2 ^ e.toNat)
      else roundHalfEven (num * 2 ^ (-e).toNat) den
    if 0 ≤ e ∧ 2 ^ 1024 ≤ m * 2 ^ e.toNat then (.inf neg, true)
    else (.finite neg m e, false)

/-- Go `strconv.commonPrefixLenIgnoreCase`: the length of the longest common
prefix of `s` and the lower-case `pre`, upper-case ASCII letters of `s` being
lowered first. -/
def commonPrefixLenIgnoreCase : List Char → List Char → Nat
  | c :: cs, p :: ps =>
    let c1 := if 'A' ≤ c ∧ c ≤ 'Z' then Char.ofNat (c.toNat + 32) else c
    if c1 = p then commonPrefixLenIgnoreCase cs ps + 1 else 0
  | _, _ => 0

/-- The `infinity` branch of `strconv.special`. -/
def specialInf (neg : Bool) (nsign : Nat) (s : List Char) : Option (Float64 × Nat) :=
  let n := commonPrefixLenIgnoreCase s "infinity".data
  let n := if 3 < n ∧ n < 8 then 3 else n
  if n = 3 ∨ n = 8 then some (.inf neg, nsign + n) else none

/-- Go `strconv.special`: recognises a leading `inf`, `infinity` (optionally
signed) or `nan`, ignoring case; returns the value and the number of characters
consumed. -/
def special (s : List Char) : Option (Float64 × Nat) :=
  match s with
  | [] => none
  | c :: cs =>
    if c = '+' then specialInf false 1 cs
    else if c = '-' then specialInf true 1 cs
    else if c = 'i' ∨ c = 'I' then specialInf false 0 (c :: cs)
    else if c = 'n' ∨ c = 'N' then
      if commonPrefixLenIgnoreCase (c :: cs) "nan".data = 3 then some (.nan, 3) else none
    else none

/-- Whether `c` is one of the letters `a`-`f`, `A`-`F`. -/
def isHexLetter (c : Char) : Bool :=
  ('a' ≤ c && c ≤ 'f') || ('A' ≤ c && c ≤ 'F')

/-- The value of a hexadecimal letter. -/
def hexLetterValue (c : Char) : Nat :=
  if 'a' ≤ c then c.toNat - 97 + 10 else c.toNat - 65 + 10

/-- The state of the mantissa loop of `strconv.readFloat`. -/
structure MantState where
  sawdot : Bool
  sawdigits : Bool
  mant : Nat
  frac : Nat
deriving DecidableEq

/-- The mantissa loop of Go `strconv.readFloat`: skips underscores, accepts one
dot, accumulates the digits (base 16 when `hex`) into `mant` and counts those
after the dot in `frac`; stops at the first other character and returns the
unread rest. -/
def readMantissa (hex : Bool) : List Char → MantState → MantState × List Char
  | [], st => (st, [])
  | c :: cs, st =>
    if c = '_' then readMantissa hex cs st
    else if c = '.' then
      if st.sawdot then (st, c :: cs)
      else readMantissa hex cs { st with sawdot := true }
    else if c.isDigit then
      readMantissa hex cs
        { st with
          sawdigits := true
          mant := st.mant * (if hex then 16 else 10) + digitVal c
          frac := if st.sawdot then st.frac + 1 else st.frac }
    else if hex && isHexLetter c then
      readMantissa hex cs
        { st with
          sawdigits := true
          mant := st.mant * 16 + hexLetterValue c
          frac := if st.sawdot then st.frac + 1 else st.frac }
    else (st, c :: cs)

/-- The digit loop of the exponent in `strconv.readFloat`: digits and
underscores are consumed, and a digit is accumulated only while the exponent
read so far is below 10000. -/
def readExpDigits : List Char → Nat → Nat × List Char
  | [], e => (e, [])
  | c :: cs, e =>
    if c = '_' then readExpDigits cs e
    else if c.isDigit then
      readExpDigits cs (if e < 10000 then e * 10 + digitVal c else e)
    else (e, c :: cs)

/-- The optional exponent of `strconv.readFloat` (`e` for decimal, `p` for
hexadecimal input, where it is mandatory): the signed exponent and the unread
rest, or `none` when the input is malformed. -/
def readExponent (hex : Bool) (s : List Char) : Option (Int × List Char) :=
  match s with
  | c :: cs =>
    if (if hex then c = 'p' ∨ c = 'P' else c = 'e' ∨ c = 'E') then
      match cs with
      | [] => none
      | d :: ds =>
        let neg := decide (d = '-')
        let body := if d = '+' ∨ d = '-' then ds else d :: ds
        match body with
        | [] => none
        | b :: _ =>
          if b.isDigit then
            let r := readExpDigits body 0
            some (if neg then -(r.1 : Int) else (r.1 : Int), r.2)
          else none
    else if hex then none
    else some (0, c :: cs)
  | [] => if hex then none else some (0, [])

/-- The loop of Go `strconv.underscoreOK`; `saw` is the last character class
seen: `'0'` a digit or base prefix, `'_'` an underscore, `'!'` anything else,
`'^'` the beginning. -/
def underscoreLoop (hex : Bool) : List Char → Char → Bool
  | [], saw => saw != '_'
  | c :: cs, saw =>
    if c.isDigit || (hex && isHexLetter c) then underscoreLoop hex cs '0'
    else if c = '_' then
      if saw != '0' then false else underscoreLoop hex cs '_'
    else if saw = '_' then false
    else underscoreLoop hex cs '!'

/-- Go `strconv.underscoreOK`: underscores appear only between digits or
between a base prefix and a digit. -/
def underscoreOK (s : List Char) : Bool :=
  let s := match s with
    | c :: cs => if c = '-' ∨ c = '+' then cs else c :: cs
    | [] => []
  match s with
  | '0' :: c :: cs =>
    if c = 'b' ∨ c = 'B' ∨ c = 'o' ∨ c = 'O' ∨ c = 'x' ∨ c = 'X' then
      underscoreLoop (decide (c = 'x' ∨ c = 'X')) cs '0'
    else underscoreLoop false s '^'
  | _ => underscoreLoop false s '^'

/-- What `strconv.readFloat` extracts from a well-formed literal that spans the
whole string: the value is `(-1)^neg * mant * base^(-frac) * b^exp` with
`base = 16, b = 2` when `hex` and `base = b = 10` otherwise. -/
structure FloatLit where
  neg : Bool
  hex : Bool
  mant : Nat
  frac : Nat
  exp : Int
deriving DecidableEq

/-- The test `i+2 < len(s) && s[i] == '0' && lower(s[i+1]) == 'x'` of
`strconv.readFloat` for a base prefix. -/
def hasHexPrefix : List Char → Bool
  | '0' :: x :: _ :: _ => decide (x = 'x' ∨ x = 'X')
  | _ => false

/-- Go `strconv.readFloat` on a whole string: optional sign, optional `0x`
prefix (only when something follows it), mantissa, exponent, and the final
underscore check; `none` when the string is not a well-formed literal from its
first to its last character. -/
def readFloat (s : List Char) : Option FloatLit :=
  match s with
  | [] => none
  | c :: cs =>
    let neg := decide (c = '-')
    let body := if c = '+' ∨ c = '-' then cs else c :: cs
    let hex := hasHexPrefix body
    let digits := if hex then body.drop 2 else body
    let r := readMantissa hex digits ⟨false, false, 0, 0⟩
    if !r.1.sawdigits then none
    else
      match readExponent hex r.2 with
      | none => none
      | some (e, rest) =>
        if rest = [] ∧ underscoreOK s then some ⟨neg, hex, r.1.mant, r.1.frac, e⟩
        else none

/-- The nearest `float64` to the exact value of a literal, and whether it
overflows. For decimal input the value is `mant * 10^(exp - frac)`, for
hexadecimal input `mant * 2^(exp - 4 * frac)`. -/
def FloatLit.toFloat64 (l : FloatLit) : Float64 × Bool :=
  let b : Nat := if l.hex then 2 else 10
  let x : Int := if l.hex then l.exp - 4 * (l.frac : Int) else l.exp - (l.frac : Int)
  if 0 ≤ x then roundFloat64 l.neg (l.mant * b ^ x.toNat) 1
  else roundFloat64 l.neg l.mant (b ^ (-x).toNat)

/-- Go `strconv.ParseFloat(s, 64)`: the special values, else the correctly
rounded value of a decimal or hexadecimal literal. A string that is not a
literal from end to end gives `0` and `ErrSyntax`; a literal whose rounded value
overflows gives an infinity and `ErrRange`. -/
def ParseFloat (s : String) : Float64 × Option NumError :=
  match special s.data with
  | some (f, n) =>
    if n = s.data.length then (f, none) else (.finite false 0 0, some .ErrSyntax)
  | none =>
    match readFloat s.data with
    | none => (.finite false 0 0, some .ErrSyntax)
    | some l =>
      let r := l.toFloat64
      (r.1, if r.2 then some .ErrRange else none)

/-! ## Go `math.Floor` and the conversion `int(f)` -/

/-- Go `math.Floor`: the greatest integral value not above `f`; infinities and
NaN are returned unchanged. -/
def Floor : Float64 → Float64
  | .finite neg m e =>
    if 0 ≤ e then .finite neg m e
    else
      let d : Nat := 2 ^ (-e).toNat
      if neg then
        if m % d = 0 then .finite true (m / d) 0 else .finite true (m / d + 1) 0
      else .finite false (m / d) 0
  | f => f

/-- The integer a finite `float64` truncates to (fraction discarded, towards
zero). -/
def Float64.truncate : Float64 → Option Int
  | .finite neg m e =>
    let mag : Nat := if 0 ≤ e then m * 2 ^ e.toNat else m / 2 ^ (-e).toNat
    some (if neg then -(mag : Int) else (mag : Int))
  | _ => none

/-- The Go conversion `int(f)`: truncation towards zero when the result fits
`int`, an implementation-dependent value otherwise. -/
def floatToInt (a : Arch) (f : Float64) : Int :=
  match f.truncate with
  | some z =>
    if -(2 ^ (a.intSize - 1) : Int) ≤ z ∧ z < (2 ^ (a.intSize - 1) : Int) then z
    else a.floatToIntOverflow f
  | none => a.floatToIntOverflow f

/-! ## `isCompatible` (`internal/downloader/download.go`) -/

/-- Go `extractBuildRange`. -/
def extractBuildRange (config : Config) : List BuildRange :=
  config.IntelliJ.Builds

/-- The body of the `for _, buildRange := range buildRanges` loop of
`isCompatible`; `continue` and falling off the end of the body both go on with
the remaining ranges, `return true` stops. -/
def isCompatibleLoop (a : Arch) (version : PluginVersion) : List BuildRange → Bool
  | [] => false
  | buildRange :: rest =>
    let untilBuild := TrimSuffix version.IdeaVersion.UntilBuild ".*"
    let untilBuild := if untilBuild = "" then "999999" else untilBuild
    let pluginSinceBuildFloat := ParseFloat version.IdeaVersion.SinceBuild
    if pluginSinceBuildFloat.2.isSome then isCompatibleLoop a version rest
    else
      let pluginUntilBuildFloat := (ParseFloat untilBuild).1
      let ideaSinceBuildInt := (Atoi a buildRange.SinceBuild).1
      let ideaUntilBuildInt : Int :=
        if buildRange.UntilBuild ≠ "*" then (Atoi a buildRange.UntilBuild).1 else 999999
      let pluginSinceBuildInt := floatToInt a (Floor pluginSinceBuildFloat.1)
      let pluginUntilBuildInt := floatToInt a (Floor pluginUntilBuildFloat)
      if decide (pluginSinceBuildInt ≥ ideaSinceBuildInt) &&
          decide (pluginUntilBuildInt ≤ ideaUntilBuildInt) then true
      else isCompatibleLoop a version rest

/-- Go `isCompatible`: whether some configured build range admits the version. -/
def isCompatible (a : Arch) (version : PluginVersion) (config : Config) : Bool :=
  isCompatibleLoop a version (extractBuildRange config)

/-! ## Numerals, as the specification speaks of them -/

/-- A non-empty string of decimal digits. -/
def isDigits (l : List Char) : Bool := !l.isEmpty && l.all Char.isDigit

/-- The leading digits of `s`: the integer part of a decimal numeral. -/
def intPart (s : String) : List Char := s.data.takeWhile Char.isDigit

/-- What follows the integer part and one more character (the dot): the
fractional digits of a decimal numeral. -/
def fracPart (s : String) : List Char := (s.data.dropWhile Char.isDigit).tail

/-- A decimal numeral: digits, optionally followed by `.` and digits. -/
def isDecimalNumeral (s : String) : Bool :=
  isDigits (intPart s) &&
    ((s.data.dropWhile Char.isDigit).isEmpty ||
      ((s.data.dropWhile Char.isDigit).head? == some '.' && isDigits (fracPart s)))

/-- The floor of a decimal numeral: the value of its integer part. -/
def numeralFloor (s : String) : Nat := digitsValue (intPart s) 0

/-- The number of digits of a decimal numeral. -/
def numeralDigitCount (s : String) : Nat := (intPart s).length + (fracPart s).length

/-- An integer numeral: a non-empty string of digits. -/
def isIntNumeral (s : String) : Bool := isDigits s.data

/-- The value of an integer numeral. -/
def intNumeralValue (s : String) : Nat := digitsValue s.data 0

/-- The exact value of a decimal numeral is `numeralNum s / numeralDen s`: the
numerator is the number its digits spell once the dot is removed. -/
def numeralNum (s : String) : Nat := digitsValue (intPart s ++ fracPart s) 0

/-- The denominator of the exact value of a decimal numeral: ten to the number
of fractional digits. -/
def numeralDen (s : String) : Nat := 10 ^ (fracPart s).length

/-- The `float64` nearest to a decimal numeral, and whether it overflows. -/
def nearestFloat64 (s : String) : Float64 × Bool :=
  roundFloat64 false (numeralNum s) (numeralDen s)

/-- The floor of the `float64` nearest to a decimal numeral (0 when that
`float64` is infinite). -/
def float64Floor (s : String) : Nat :=
  match (Floor (nearestFloat64 s).1).truncate with
  | some z => z.toNat
  | none => 0

/-- A decimal numeral within machine range: the `float64` nearest to it is
finite and its floor fits the machine `int`. -/
def NumeralInRange (a : Arch) (s : String) : Prop :=
  isDecimalNumeral s = true ∧ (nearestFloat64 s).2 = false ∧
    float64Floor s < 2 ^ (a.intSize - 1)

/-- A decimal numeral of at most 15 digits whose floor fits the machine `int`. -/
def ShortNumeral (a : Arch) (s : String) : Prop :=
  isDecimalNumeral s = true ∧ numeralDigitCount s ≤ 15 ∧ numeralFloor s < 2 ^ (a.intSize - 1)

/-- A non-negative integer numeral within the range of the machine `int`. -/
def IntNumeralInRange (a : Arch) (s : String) : Prop :=
  isIntNumeral s = true ∧ intNumeralValue s < 2 ^ (a.intSize - 1)

/-- The upper bound a candidate version declares, read exactly: 999999 when its
until-build is empty after one trailing `.*` is stripped, the floor of what is
left otherwise. -/
def candidateUntilN (untilBuild : String) : Nat :=
  if TrimSuffix untilBuild ".*" = "" then 999999
  else numeralFloor (TrimSuffix untilBuild ".*")

/-- The upper bound a candidate version declares, read through `float64`: 999999
when its until-build is empty after one trailing `.*` is stripped, the floor of
the `float64` nearest to what is left otherwise. -/
def candidateUntilFloat (untilBuild : String) : Nat :=
  if TrimSuffix untilBuild ".*" = "" then 999999
  else float64Floor (TrimSuffix untilBuild ".*")

/-- The lower bound of a target range. -/
def targetSinceN (r : BuildRange) : Nat := intNumeralValue r.SinceBuild

/-- The upper bound of a target range: 999999 for the wildcard `*`, the integer
value otherwise. -/
def targetUntilN (r : BuildRange) : Nat :=
  if r.UntilBuild = "*" then 999999 else intNumeralValue r.UntilBuild

/-- A plain path element, on characters. -/
def PlainChars (e : List Char) : Prop :=
  e ≠ [] ∧ '/' ∉ e ∧ e ≠ ['.'] ∧ e ≠ ['.', '.']

/-- A plain path element: non-empty, without `/`, and neither `.` nor `..`. -/
def isPlainElem (e : String) : Bool :=
  e.data != [] && !e.data.contains '/' && e.data != ['.'] && e.data != ['.', '.']

/-- Every character is a digit or a dot. -/
def digitsOrDots (l : List Char) : Prop := ∀ c ∈ l, c.isDigit = true ∨ c = '.'

/-- The decimal numeral made of the digit `d` followed by 308 zeros; from
`d = 2` on it exceeds the largest finite `float64`, about `1.8e308`. -/
def hugeNumeral (d : Char) : String := String.mk (d :: List.replicate 308 '0')

/-! ## Go `path/filepath` (Unix: the separator is `/`) -/

/-- Go `strings.Join(elems, sep)`. -/
def stringsJoin (sep : List Char) : List (List Char) → List Char
  | [] => []
  | [e] => e
  | e :: es => e ++ sep ++ stringsJoin sep es

/-- The backtracking loop of `filepath.Clean` on a `..` element:
`for out.w > dotdot && !os.IsPathSeparator(out.index(out.w)) { out.w-- }`,
started at `w`; returns the final `w`. -/
def backtrackLoop (out : List Char) (dotdot : Nat) : Nat → Nat
  | 0 => 0
  | w + 1 =>
    if dotdot < w + 1 ∧ out.get? (w + 1) ≠ some '/' then backtrackLoop out dotdot w
    else w + 1

/-- The main loop `for r < n` of Go `filepath.Clean`: the unread part of the
path, the buffer written so far and the index `dotdot`; every iteration reads at
least one character, and `fuel` bounds the number of iterations. -/
def cleanLoop (rooted : Bool) : Nat → List Char → List Char → Nat → List Char
  | 0, _, out, _ => out
  | _ + 1, [], out, _ => out
  | fuel + 1, c :: rest, out, dotdot =>
    if c = '/' then
      -- empty path element
      cleanLoop rooted fuel rest out dotdot
    else if c = '.' ∧ (rest = [] ∨ rest.head? = some '/') then
      -- . element
      cleanLoop rooted fuel rest out dotdot
    else if c = '.' ∧ rest.head? = some '.' ∧ (rest.tail = [] ∨ rest.tail.head? = some '/') then
      -- .. element: remove to last separator
      if dotdot < out.length then
        cleanLoop rooted fuel rest.tail
          (out.take (backtrackLoop out dotdot (out.length - 1))) dotdot
      else if !rooted then
        let out1 := (if 0 < out.length then out ++ ['/'] else out) ++ ['.', '.']
        cleanLoop rooted fuel rest.tail out1 out1.length
      else cleanLoop rooted fuel rest.tail out dotdot
    else
      -- real path element: add slash if needed, copy element
      let out1 :=
        if (rooted && out.length != 1) || (!rooted && out.length != 0) then out ++ ['/']
        else out
      cleanLoop rooted fuel ((c :: rest).dropWhile (fun x => x != '/'))
        (out1 ++ (c :: rest).takeWhile (fun x => x != '/')) dotdot

/-- Go `filepath.Clean` on the characters of a path. -/
def cleanChars (path : List Char) : List Char :=
  if path = [] then ['.']
  else
    let rooted := path.head? == some '/'
    let out :=
      cleanLoop rooted path.length (if rooted then path.tail else path)
        (if rooted then ['/'] else []) (if rooted then 1 else 0)
    if out = [] then ['.'] else out

/-- Go `filepath.Clean`. -/
def Clean (path : String) : String := String.mk (cleanChars path.data)

/-- Go `filepath.Join`: the elements from the first non-empty one on, joined
with `/` and cleaned; the empty string when every element is empty. -/
def Join : List String → String
  | [] => ""
  | e :: es =>
    if e ≠ "" then String.mk (cleanChars (stringsJoin ['/'] ((e :: es).map String.data)))
    else Join es

/-! ## The mirror layout of `downloadFile` (`internal/downloader/download.go`) -/

/-- The directory `downloadFile` creates for a version:
`filepath.Join("output", "plugins", pluginID, pluginVersion)`. -/
def downloadFile_outputDir (pluginID pluginVersion : String) : String :=
  Join ["output", "plugins", pluginID, pluginVersion]

/-- The name of the artifact file:
`fmt.Sprintf("%s-intellij-bin-%s.zip", pluginID, pluginVersion)`. -/
def downloadFile_fileName (pluginID pluginVersion : String) : String :=
  pluginID ++ "-intellij-bin-" ++ pluginVersion ++ ".zip"

/-- The path of the artifact file: `filepath.Join(outputDir, fileName)`. -/
def downloadFile_filePath (pluginID pluginVersion : String) : String :=
  Join [downloadFile_outputDir pluginID pluginVersion, downloadFile_fileName pluginID pluginVersion]

/-- The path of the metadata record: `filepath.Join(outputDir, "metadata.json")`. -/
def downloadFile_metadataFile (pluginID pluginVersion : String) : String :=
  Join [downloadFile_outputDir pluginID pluginVersion, "metadata.json"]

/-- The static server of `cmd/server/main.go` serves the directory `output` at
`http://localhost:8080/`: the URL of the file at `path`, when `path` lies under
`output/`. -/
def servedURL (path : String) : Option String :=
  if "output/".data <+: path.data then
    some ("http://localhost:8080/" ++ String.mk (path.data.drop "output/".data.length))
  else none

/-! ## `GenerateIndexXML` (`internal/xml/generate.go`) -/

/-- The anonymous struct of the field `IdeaVersion` of `xmlgenerator.IdeaPlugin`. -/
structure XMLIdeaVersion where
  SinceBuild : String
  UntilBuild : String
deriving DecidableEq

/-- The anonymous struct of the field `Vendor` of `xmlgenerator.IdeaPlugin`. -/
structure XMLVendor where
  Email : String
  URL : String
deriving DecidableEq

/-- The Go struct `xmlgenerator.IdeaPlugin`. -/
structure IdeaPlugin where
  ID : String
  Name : String
  Version : String
  URL : String
  IdeaVersion : XMLIdeaVersion
  Vendor : XMLVendor
  Description : String
deriving DecidableEq

/-- The Go struct `xmlgenerator.Category`. -/
structure Category where
  Name : String
  IdeaPlugins : List IdeaPlugin
deriving DecidableEq

/-- The Go struct `xmlgenerator.PluginRepository`. -/
structure PluginRepository where
  Category : Category
deriving DecidableEq

/-- One call that `filepath.Walk` makes to its callback: the path visited, the
base name `info.Name()` and the error passed in, if any. -/
structure WalkEntry where
  path : String
  name : String
  err : Option String
deriving DecidableEq

/-- The file-system state `GenerateIndexXML` runs against. `walk root` lists the
calls `filepath.Walk(root, fn)` makes, in its lexical order, as long as `fn`
returns nil; `readFile` is the outcome of `ioutil.ReadFile` (the content, or
`none` when the file cannot be read); `canCreate` says whether `os.Create`
succeeds. -/
structure FileSystem where
  walk : String → List WalkEntry
  readFile : String → Option String
  canCreate : String → Bool

/-- The state after the file at `path` has been given the content `content`. -/
def FileSystem.write (fs : FileSystem) (path content : String) : FileSystem :=
  { fs with readFile := fun p => if p = path then some content else fs.readFile p }

/-- The encoders of the Go standard library that `GenerateIndexXML` relies on:
`json.Unmarshal` into a `PluginMetadata` (`none` when the content does not
parse) and the indented `xml.Encoder` (for a repository, the text written
before the encoder stopped and whether it stopped on an error). -/
structure Codec where
  jsonUnmarshal : String → Option PluginMetadata
  xmlEncode : PluginRepository → String × Bool

/-- Go `readMetadata`: read the file, then parse it; `none` is the error case. -/
def readMetadata (codec : Codec) (fs : FileSystem) (metadataFile : String) :
    Option PluginMetadata :=
  match fs.readFile metadataFile with
  | none => none
  | some data => codec.jsonUnmarshal data

/-- The URL `GenerateIndexXML` formats for a metadata record. -/
def pluginURL (id version : String) : String :=
  "http://localhost:8080/plugins/" ++ id ++ "/" ++ version ++ "/" ++ id ++ "-intellij-bin-" ++
    version ++ ".zip"

/-- The listing entry `GenerateIndexXML` appends for a metadata record. -/
def toIdeaPlugin (metadata : PluginMetadata) : IdeaPlugin :=
  { ID := metadata.ID
    Name := metadata.ID
    Version := metadata.Version
    URL := pluginURL metadata.ID metadata.Version
    IdeaVersion := ⟨metadata.SinceBuild, metadata.UntilBuild⟩
    Vendor := ⟨"support@jetbrains.com", "https://www.jetbrains.com"⟩
    Description := metadata.Description }

/-- The callback of `filepath.Walk` in `GenerateIndexXML`, run over the calls of
the walk: an error passed in, or a `metadata.json` that cannot be read or
parsed, stops the walk with an error (`none`); otherwise the entry of every
`metadata.json` is appended to `plugins`. -/
def walkPlugins (codec : Codec) (fs : FileSystem) :
    List WalkEntry → List IdeaPlugin → Option (List IdeaPlugin)
  | [], plugins => some plugins
  | e :: es, plugins =>
    if e.err.isSome then none
    else if e.name = "metadata.json" then
      match readMetadata codec fs e.path with
      | none => none
      | some metadata => walkPlugins codec fs es (plugins ++ [toIdeaPlugin metadata])
    else walkPlugins codec fs es plugins

/-- Go `GenerateIndexXML`: the error returned (`none` for nil) and the
file-system state left. The walk comes first; only when it succeeds is the
output file created (and truncated), then the repository encoded into it. -/
def GenerateIndexXML (codec : Codec) (fs : FileSystem) (filePath : String) :
    Option String × FileSystem :=
  match walkPlugins codec fs (fs.walk "output/plugins") [] with
  | none => (some "failed to walk plugin directory", fs)
  | some plugins =>
    if !fs.canCreate filePath then (some "failed to create XML file", fs)
    else
      let repo : PluginRepository := ⟨⟨"Programming Languages", plugins⟩⟩
      let encoded := codec.xmlEncode repo
      if encoded.2 then (some "failed to encode XML", fs.write filePath encoded.1)
      else (none, fs.write filePath encoded.1)

/-- The metadata records the walk finds: the outcome of `readMetadata` on every
visited entry named `metadata.json`, in walk order. -/
def metadataRecords (codec : Codec) (fs : FileSystem) : List (Option PluginMetadata) :=
  ((fs.walk "output/plugins").filter (fun e => e.name = "metadata.json")).map
    (fun e => readMetadata codec fs e.path)

/-! ## `SyncPlugins` (`internal/downloader/download.go`) -/

/-- The operations `SyncPlugins` performs on the outside world, as functions of
a world state `σ`: each returns its outcome (for an error, `some` message or
`Except.error`) and the state it leaves. -/
structure SyncEnv (σ : Type) where
  MkdirAll : String → σ → Option String × σ
  fetchPluginVersions : String → σ → Except String (List PluginVersion) × σ
  downloadFile : String → String → String → String → String → σ → Option String × σ
  GenerateIndexXML : String → σ → Option String × σ

/-- The loop `for _, version := range pluginVersions` of `downloadPlugin`: a
compatible version is downloaded, and a failed download is logged and skipped. -/
def downloadVersions {σ : Type} (env : SyncEnv σ) (a : Arch) (plugin : Plugin)
    (config : Config) : List PluginVersion → σ → σ
  | [], s => s
  | version :: rest, s =>
    if isCompatible a version config then
      downloadVersions env a plugin config rest
        (env.downloadFile plugin.ID version.Version version.IdeaVersion.SinceBuild
          version.IdeaVersion.UntilBuild version.Description s).2
    else downloadVersions env a plugin config rest s

/-- Go `downloadPlugin`: the error of the catalog fetch, if any; otherwise the
compatible versions are downloaded and nil is returned. -/
def downloadPlugin {σ : Type} (env : SyncEnv σ) (a : Arch) (plugin : Plugin)
    (config : Config) (s : σ) : Option String × σ :=
  match env.fetchPluginVersions plugin.ID s with
  | (.error e, s1) => (some e, s1)
  | (.ok pluginVersions, s1) => (none, downloadVersions env a plugin config pluginVersions s1)

/-- The loop `for _, plugin := range config.Plugins` of `SyncPlugins`: the error
of `downloadPlugin` is logged and the loop goes on. -/
def downloadPlugins {σ : Type} (env : SyncEnv σ) (a : Arch) (config : Config) :
    List Plugin → σ → σ
  | [], s => s
  | plugin :: rest, s => downloadPlugins env a config rest (downloadPlugin env a plugin config s).2

/-- Go `SyncPlugins`: the error returned (`none` for nil) and the state left. -/
def SyncPlugins {σ : Type} (env : SyncEnv σ) (a : Arch) (config : Config) (s : σ) :
    Option String × σ :=
  match env.MkdirAll "output/plugins" s with
  | (some _, s1) => (some "failed to create output directory", s1)
  | (none, s1) =>
    let s2 := downloadPlugins env a config config.Plugins s1
    let xmlFilePath := Join ["output/plugins", "index.xml"]
    match env.GenerateIndexXML xmlFilePath s2 with
    | (some _, s3) => (some "failed to generate index.xml", s3)
    | (none, s3) => (none, s3)

/-! ## A small mirror, for the examples -/

/-- A codec for the examples: one JSON text parses to the record of plugin `X`
version `1.0`, every other text is malformed, and the encoder never fails. -/
def exampleCodec : Codec where
  jsonUnmarshal := fun data =>
    if data = "\x7b\"id\":\"X\",\"version\":\"1.0\"\x7d" then some ⟨"X", "1.0", "243.1", "243.*", "d"⟩
    else none
  xmlEncode := fun repo => (String.join (repo.Category.IdeaPlugins.map fun p => p.URL), false)

/-- A mirror holding the artifact directory of plugin `X` version `1.0`, whose
`metadata.json` has the content `metadata`, and an older `index.xml`. -/
def exampleFS (metadata : String) : FileSystem where
  walk := fun root =>
    if root = "output/plugins" then
      [⟨"output/plugins", "plugins", none⟩, ⟨"output/plugins/X", "X", none⟩,
        ⟨"output/plugins/X/1.0", "1.0", none⟩,
        ⟨"output/plugins/X/1.0/X-intellij-bin-1.0.zip", "X-intellij-bin-1.0.zip", none⟩,
        ⟨"output/plugins/X/1.0/metadata.json", "metadata.json", none⟩,
        ⟨"output/plugins/index.xml", "index.xml", none⟩]
    else [⟨root, root, some "lstat: no such file or directory"⟩]
  readFile := fun p =>
    if p = "output/plugins/X/1.0/metadata.json" then some metadata
    else if p = "output/plugins/index.xml" then some "old index"
    else none
  canCreate := fun _ => true

/-- A world for `SyncPlugins` whose state is the log of the operations
performed; `mkdirOk`, `fetchOk`, `downloadOk` and `indexOk` fix the outcomes. -/
def exampleEnv (mkdirOk fetchOk downloadOk indexOk : Bool) : SyncEnv (List String) where
  MkdirAll := fun p s => (if mkdirOk then none else some "mkdir failed", s ++ ["mkdir " ++ p])
  fetchPluginVersions := fun id s =>
    (if fetchOk then .ok [⟨"1.0", "", ⟨"243.1", "243.*"⟩, "d"⟩] else .error "HTTP 500",
      s ++ ["fetch " ++ id])
  downloadFile := fun id v _ _ _ s =>
    (if downloadOk then none else some "download failed", s ++ ["download " ++ id ++ " " ++ v])
  GenerateIndexXML := fun p s => (if indexOk then none else some "index failed", s ++ ["index " ++ p])
/-! ## Lemmas on `strings.TrimSuffix` and the loop of `isCompatible` -/

theorem hasSuffix_append (u suf : String) : HasSuffix (u ++ suf) suf = true := by
  simp [HasSuffix, String.data_append]

theorem trimSuffix_append (u suf : String) : TrimSuffix (u ++ suf) suf = u := by
  rw [TrimSuffix, if_pos (hasSuffix_append u suf)]
  simp [String.data_append]

theorem hasSuffix_iff (s suf : String) : HasSuffix s suf = true ↔ suf.data <:+ s.data := by
  simp only [HasSuffix, Bool.and_eq_true, decide_eq_true_eq]
  constructor
  · rintro ⟨_, h⟩
    rw [← h]
    exact List.drop_suffix _ _
  · intro h
    obtain ⟨t, ht⟩ := h
    rw [← ht]
    simp

theorem trimSuffix_of_not_suffix (s suf : String) (h : ¬ suf.data <:+ s.data) :
    TrimSuffix s suf = s := by
  have : HasSuffix s suf = false := by
    rw [← Bool.not_eq_true, hasSuffix_iff]; exact h
  simp [TrimSuffix, this]

theorem isCompatibleLoop_congr (a : Arch) (v w : PluginVersion)
    (hs : v.IdeaVersion.SinceBuild = w.IdeaVersion.SinceBuild)
    (hu : TrimSuffix v.IdeaVersion.UntilBuild ".*" = TrimSuffix w.IdeaVersion.UntilBuild ".*")
    (l : List BuildRange) : isCompatibleLoop a v l = isCompatibleLoop a w l := by
  induction l with
  | nil => rfl
  | cons r rest ih => simp only [isCompatibleLoop, hs, hu, ih]

theorem isCompatibleLoop_since_error (a : Arch) (v : PluginVersion)
    (h : (ParseFloat v.IdeaVersion.SinceBuild).2 ≠ none) (l : List BuildRange) :
    isCompatibleLoop a v l = false := by
  induction l with
  | nil => rfl
  | cons r rest ih =>
    have h1 : (ParseFloat v.IdeaVersion.SinceBuild).2.isSome = true := by
      cases hx : (ParseFloat v.IdeaVersion.SinceBuild).2 with
      | none => exact absurd hx h
      | some e => rfl
    simp only [isCompatibleLoop, h1, ih, if_true]

/-! ## `strconv.Atoi` on digit strings -/


theorem digitsValue_ge (l : List Char) (acc : Nat) : acc ≤ digitsValue l acc := by
  induction l generalizing acc with
  | nil => exact Nat.le_refl _
  | cons c cs ih =>
    have := ih (acc * 10 + digitVal c)
    simp only [digitsValue]
    omega

theorem parseUintLoop_digits (maxVal : Nat) (hmax : maxVal < 2 ^ 64) (l : List Char) (n : Nat)
    (hl : l.all Char.isDigit = true) (hv : digitsValue l n ≤ maxVal) :
    parseUintLoop maxVal l n = (digitsValue l n, none) := by
  induction l generalizing n with
  | nil => rfl
  | cons c cs ih =>
    simp only [List.all_cons, Bool.and_eq_true] at hl
    simp only [digitsValue] at hv
    have hge := digitsValue_ge cs (n * 10 + digitVal c)
    have e1 : (2 ^ 64 - 1) / 10 + 1 = 1844674407370955162 := by norm_num
    have e2 : (2 : Nat) ^ 64 = 18446744073709551616 := by norm_num
    rw [e2] at hmax
    have h1 : ¬ (n ≥ (2 ^ 64 - 1) / 10 + 1) := by
      rw [e1]
      omega
    have h2 : ¬ (n * 10 + digitVal c > maxVal) := by omega
    simp only [parseUintLoop, hl.1, if_true, h1, h2, if_false, digitsValue]
    exact ih _ hl.2 hv

theorem digit_ne_plus {c : Char} (h : c.isDigit = true) : c ≠ '+' := by
  rintro rfl; revert h; decide

theorem digit_ne_minus {c : Char} (h : c.isDigit = true) : c ≠ '-' := by
  rintro rfl; revert h; decide

theorem two_pow_intSize_le (a : Arch) : 2 ^ (a.intSize - 1) ≤ 2 ^ a.intSize - 1 ∧ 2 ^ a.intSize - 1 < 2 ^ 64 := by
  rcases a.intSize_ok with h | h <;> rw [h] <;> norm_num

theorem atoi_digits (a : Arch) (s : String) (hd : isDigits s.data = true)
    (hv : digitsValue s.data 0 < 2 ^ (a.intSize - 1)) :
    Atoi a s = (((digitsValue s.data 0 : Nat) : Int), none) := by
  unfold Atoi
  cases hs : s.data with
  | nil => simp [hs, isDigits] at hd
  | cons c cs =>
    rw [hs] at hd hv
    simp only [isDigits, List.isEmpty_cons, Bool.not_false, Bool.true_and] at hd
    have hc : c.isDigit = true := by
      simp only [List.all_cons, Bool.and_eq_true] at hd; exact hd.1
    have hb : ¬ (c = '+' ∨ c = '-') := by
      rintro (h | h)
      · exact digit_ne_plus hc h
      · exact digit_ne_minus hc h
    have hm := two_pow_intSize_le a
    have hu : ParseUint a.intSize (c :: cs) = (digitsValue (c :: cs) 0, none) := by
      simp only [ParseUint]
      exact parseUintLoop_digits _ hm.2 _ _ hd (by omega)
    have : ¬ (digitsValue (c :: cs) 0 ≥ 2 ^ (a.intSize - 1)) := by omega
    simp only [ParseInt, if_neg hb, hu]
    simp [digit_ne_minus hc, this]

/-! ## Rounding to `float64` never crosses an integer for short numerals -/

theorem log2Loop_spec (fuel n : Nat) (hn : 0 < n) (hf : n < 2 ^ fuel) :
    2 ^ log2Loop fuel n ≤ n ∧ n < 2 ^ (log2Loop fuel n + 1) := by
  induction fuel generalizing n with
  | zero => simp at hf; omega
  | succ f ih =>
    simp only [log2Loop]
    split
    · have h1 : n = 1 := by omega
      subst h1; simp
    · have h2 : 0 < n / 2 := by omega
      have h3 : n / 2 < 2 ^ f := by rw [pow_succ] at hf; omega
      obtain ⟨hlo, hhi⟩ := ih (n / 2) h2 h3
      rw [pow_succ] at hhi ⊢
      rw [pow_succ (2 : Nat) (log2Loop f (n / 2) + 1), pow_succ (2 : Nat) (log2Loop f (n / 2))]
      constructor <;> omega

theorem natLog2_spec (n : Nat) (hn : 0 < n) :
    2 ^ natLog2 n ≤ n ∧ n < 2 ^ (natLog2 n + 1) :=
  log2Loop_spec n n hn (Nat.lt_two_pow n)

theorem natLog2_le_of_lt (n b : Nat) (hn : 0 < n) (h : n < 2 ^ (b + 1)) : natLog2 n ≤ b := by
  by_contra hc
  have h1 : b + 1 ≤ natLog2 n := by omega
  have h2 : 2 ^ (b + 1) ≤ 2 ^ natLog2 n := Nat.pow_le_pow_right (by norm_num) h1
  have := (natLog2_spec n hn).1
  omega

theorem floorLog2_le (num den : Nat) : floorLog2 num den ≤ (natLog2 num : Int) := by
  simp only [floorLog2]
  split <;> omega

theorem floorLog2_lower (num den : Nat) (hnum : 0 < num) (hden : 0 < den)
    (hpos : 0 < floorLog2 num den) : den * 2 ^ (floorLog2 num den).toNat ≤ num := by
  simp only [floorLog2] at hpos ⊢
  by_cases hge : geTwoPow num den ((natLog2 num : Int) - (natLog2 den : Int)) = true
  · rw [if_pos hge] at hpos ⊢
    have h0 : (0 : Int) ≤ (natLog2 num : Int) - (natLog2 den : Int) := by omega
    simpa [geTwoPow, h0] using hge
  · rw [if_neg hge] at hpos ⊢
    obtain ⟨ha, _⟩ := natLog2_spec num hnum
    obtain ⟨_, hb⟩ := natLog2_spec den hden
    have hab : natLog2 den + 2 ≤ natLog2 num := by omega
    have e1 : ((natLog2 num : Int) - (natLog2 den : Int) - 1).toNat
        = natLog2 num - natLog2 den - 1 := by omega
    rw [e1]
    have e2 : natLog2 num = (natLog2 den + 1) + (natLog2 num - natLog2 den - 1) := by omega
    have h1 : den * 2 ^ (natLog2 num - natLog2 den - 1)
        ≤ 2 ^ (natLog2 den + 1) * 2 ^ (natLog2 num - natLog2 den - 1) :=
      Nat.mul_le_mul_right _ (Nat.le_of_lt hb)
    rw [← pow_add, ← e2] at h1
    exact Nat.le_trans h1 ha

theorem roundHalfEven_cases (num den : Nat) :
    (roundHalfEven num den = num / den ∧ 2 * (num % den) ≤ den) ∨
    (roundHalfEven num den = num / den + 1 ∧ den ≤ 2 * (num % den)) := by
  unfold roundHalfEven
  simp only
  split
  · left; exact ⟨rfl, by omega⟩
  · split
    · right; exact ⟨rfl, by omega⟩
    · split
      · left; exact ⟨rfl, by omega⟩
      · right; exact ⟨rfl, by omega⟩

theorem le_roundHalfEven (num den q : Nat) (hden : 0 < den) (h : q * den ≤ num) :
    q ≤ roundHalfEven num den := by
  have hq : q ≤ num / den := (Nat.le_div_iff_mul_le hden).2 h
  rcases roundHalfEven_cases num den with ⟨e, _⟩ | ⟨e, _⟩ <;> omega

theorem roundHalfEven_lt (num den p : Nat) (hden : 0 < den)
    (h : 2 * num + den < 2 * p * den) : roundHalfEven num den < p := by
  have hdm : den * (num / den) + num % den = num := Nat.div_add_mod num den
  rcases roundHalfEven_cases num den with ⟨e, _⟩ | ⟨e, hr⟩
  · rw [e]
    by_contra hc
    have h1 : p ≤ num / den := by omega
    have h2 : p * den ≤ (num / den) * den := Nat.mul_le_mul_right _ h1
    have h3 : den * (num / den) = num / den * den := Nat.mul_comm _ _
    have h4 : 2 * p * den = 2 * (p * den) := Nat.mul_assoc _ _ _
    omega
  · rw [e]
    by_contra hc
    have h1 : p ≤ num / den + 1 := by omega
    have h2 : p * den ≤ (num / den + 1) * den := Nat.mul_le_mul_right _ h1
    have h3 : (num / den + 1) * den = den * (num / den) + den := by ring
    have h4 : 2 * p * den = 2 * (p * den) := Nat.mul_assoc _ _ _
    omega
theorem roundHalfEven_scaled (num den k : Nat) (hden : 0 < den) (hnum : num + 1 < 2 ^ 53)
    (hk : 52 ≤ k ∨ den * 2 ^ (52 - k) ≤ num) :
    num / den * 2 ^ k ≤ roundHalfEven (num * 2 ^ k) den ∧
    roundHalfEven (num * 2 ^ k) den < (num / den + 1) * 2 ^ k := by
  have hA : 0 < 2 ^ k := Nat.pow_pos (by norm_num)
  have hdm : num / den * den ≤ num := Nat.div_mul_le_self num den
  have hlt : num < (num / den + 1) * den := by
    have := Nat.lt_mul_div_succ num hden
    rw [Nat.mul_comm] at this; exact this
  generalize num / den = n at hdm hlt ⊢
  obtain ⟨G, hG⟩ : ∃ G, (n + 1) * den = num + G := ⟨(n + 1) * den - num, by omega⟩
  have hG1 : 1 ≤ G := by omega
  have e53 : (2 : Nat) ^ 53 = 9007199254740992 := by norm_num
  rw [e53] at hnum
  have hF : num + G < 9007199254740992 * G := by omega
  constructor
  · apply le_roundHalfEven _ _ _ hden
    calc n * 2 ^ k * den = (n * den) * 2 ^ k := by ring
      _ ≤ num * 2 ^ k := Nat.mul_le_mul_right _ hdm
  · apply roundHalfEven_lt _ _ _ hden
    have key : den < 2 * 2 ^ k * G := by
      rcases hk with hk | hk
      · have h1 : (2 : Nat) ^ 52 ≤ 2 ^ k := Nat.pow_le_pow_right (by norm_num) hk
        have e52 : (2 : Nat) ^ 52 = 4503599627370496 := by norm_num
        rw [e52] at h1
        have h2 : 4503599627370496 * G ≤ 2 ^ k * G := Nat.mul_le_mul_right _ h1
        have h3 : den ≤ (n + 1) * den := Nat.le_mul_of_pos_left _ (by omega)
        have h4 : 2 * 2 ^ k * G = 2 * (2 ^ k * G) := Nat.mul_assoc _ _ _
        omega
      · by_cases hk52 : 52 ≤ k
        · have h1 : (2 : Nat) ^ 52 ≤ 2 ^ k := Nat.pow_le_pow_right (by norm_num) hk52
          have e52 : (2 : Nat) ^ 52 = 4503599627370496 := by norm_num
          rw [e52] at h1
          have h2 : 4503599627370496 * G ≤ 2 ^ k * G := Nat.mul_le_mul_right _ h1
          have h3 : den ≤ (n + 1) * den := Nat.le_mul_of_pos_left _ (by omega)
          have h4 : 2 * 2 ^ k * G = 2 * (2 ^ k * G) := Nat.mul_assoc _ _ _
          omega
        · by_contra hc
          have hc1 : 2 * 2 ^ k * G ≤ den := by omega
          have h1 : 2 * 2 ^ k * G * 2 ^ (52 - k) ≤ den * 2 ^ (52 - k) := Nat.mul_le_mul_right _ hc1
          have h2 : 2 * 2 ^ k * G * 2 ^ (52 - k) = 2 * (2 ^ k * 2 ^ (52 - k)) * G := by ring
          have h3 : (2 : Nat) ^ k * 2 ^ (52 - k) = 2 ^ 52 := by
            rw [← pow_add]; congr 1; omega
          have e52 : (2 : Nat) ^ 52 = 4503599627370496 := by norm_num
          rw [h2, h3, e52] at h1
          omega
    calc 2 * (num * 2 ^ k) + den < 2 * (num * 2 ^ k) + 2 * 2 ^ k * G := by omega
      _ = 2 * 2 ^ k * (num + G) := by ring
      _ = 2 * ((n + 1) * 2 ^ k) * den := by rw [← hG]; ring

theorem roundFloat64_small (num den : Nat) (hden : 0 < den) (hnum : num + 1 < 2 ^ 53) :
    (roundFloat64 false num den).2 = false ∧
    (Floor (roundFloat64 false num den).1).truncate = some ((num / den : Nat) : Int) := by
  by_cases h0 : num = 0
  · subst h0; simp [roundFloat64, Floor, Float64.truncate]
  have hpos : 0 < num := Nat.pos_of_ne_zero h0
  have hL : floorLog2 num den ≤ 52 := by
    have h1 := floorLog2_le num den
    have h2 := natLog2_le_of_lt num 52 hpos (by omega)
    omega
  obtain ⟨k, hk⟩ : ∃ k : Nat, max (floorLog2 num den - 52) (-1074) = -(k : Int) :=
    ⟨(-(max (floorLog2 num den - 52) (-1074))).toNat, by omega⟩
  have hkk : 52 ≤ k ∨ den * 2 ^ (52 - k) ≤ num := by
    by_cases hk52 : 52 ≤ k
    · exact Or.inl hk52
    · right
      have hLk : floorLog2 num den = ((52 - k : Nat) : Int) := by omega
      have hlow := floorLog2_lower num den hpos hden (by omega)
      rw [hLk] at hlow
      simpa using hlow
  obtain ⟨hlo, hhi⟩ := roundHalfEven_scaled num den k hden hnum hkk
  have hm : (if (0 : Int) ≤ -(k : Int) then roundHalfEven num (den * 2 ^ (-(k : Int)).toNat)
      else roundHalfEven (num * 2 ^ (-(-(k : Int))).toNat) den)
      = roundHalfEven (num * 2 ^ k) den := by
    by_cases hk0 : k = 0
    · subst hk0; simp
    · have h1 : ¬ ((0 : Int) ≤ -(k : Int)) := by omega
      rw [if_neg h1]; simp
  have hov : ¬ ((0 : Int) ≤ -(k : Int) ∧
      2 ^ 1024 ≤ roundHalfEven (num * 2 ^ k) den * 2 ^ (-(k : Int)).toNat) := by
    rintro ⟨hk0, hbig⟩
    have hk0 : k = 0 := by omega
    subst hk0
    simp only [pow_zero, Nat.mul_one, Nat.cast_zero, neg_zero, Int.toNat_zero] at hlo hhi hbig
    have h1 : num / den ≤ num := Nat.div_le_self _ _
    have h3 : roundHalfEven num den < 2 ^ 53 := by
      generalize num / den = n at hlo hhi h1
      omega
    have h2 : (2 : Nat) ^ 53 ≤ 2 ^ 1024 := pow_le_pow_right₀ (by decide) (by decide)
    exact Nat.lt_irrefl _ (Nat.lt_of_lt_of_le h3 (Nat.le_trans h2 hbig))
  simp only [roundFloat64, if_neg h0, hk, hm]
  rw [if_neg hov]
  by_cases hk0 : k = 0
  · subst hk0
    simp only [pow_zero, Nat.mul_one] at hlo hhi
    have hmn : roundHalfEven num den = num / den := by
      generalize num / den = n at hlo hhi ⊢
      omega
    simp [hmn, Floor, Float64.truncate]
  · have h1 : ¬ ((0 : Int) ≤ -(k : Int)) := by omega
    have hdiv : roundHalfEven (num * 2 ^ k) den / 2 ^ k = num / den := by
      apply Nat.div_eq_of_lt_le
      · exact hlo
      · exact hhi
    simp [h1, Floor, Float64.truncate, hdiv]
/-! ## `strconv.ParseFloat` on decimal numerals -/
theorem digitVal_le {c : Char} (h : c.isDigit = true) : digitVal c ≤ 9 := by
  simp only [Char.isDigit, Bool.and_eq_true, decide_eq_true_eq] at h
  have h2 : c.val.toNat ≤ 57 := h.2
  simp only [digitVal, Char.toNat]
  omega

theorem digit_ne_underscore {c : Char} (h : c.isDigit = true) : c ≠ '_' := by
  rintro rfl; revert h; decide

theorem digit_ne_dot {c : Char} (h : c.isDigit = true) : c ≠ '.' := by
  rintro rfl; revert h; decide

theorem dot_not_digit : Char.isDigit '.' = false := by decide

theorem digitsValue_append (l r : List Char) (acc : Nat) :
    digitsValue (l ++ r) acc = digitsValue r (digitsValue l acc) := by
  induction l generalizing acc with
  | nil => rfl
  | cons c cs ih => exact ih _

theorem digitsValue_acc (l : List Char) (acc : Nat) :
    digitsValue l acc = acc * 10 ^ l.length + digitsValue l 0 := by
  induction l generalizing acc with
  | nil => simp [digitsValue]
  | cons c cs ih =>
    simp only [digitsValue, List.length_cons]
    rw [ih (acc * 10 + digitVal c), ih (0 * 10 + digitVal c)]
    ring

theorem digitsValue_lt (l : List Char) (hl : l.all Char.isDigit = true) :
    digitsValue l 0 < 10 ^ l.length := by
  induction l using List.reverseRecOn with
  | nil => simp [digitsValue]
  | append_singleton cs c ih =>
    simp only [List.all_append, Bool.and_eq_true, List.all_cons, List.all_nil, Bool.and_true] at hl
    have h1 := ih hl.1
    have h2 := digitVal_le hl.2
    rw [digitsValue_append]
    simp only [digitsValue, List.length_append, List.length_singleton, pow_succ]
    omega

theorem readMantissa_digits (ds r : List Char) (st : MantState)
    (hds : ds.all Char.isDigit = true) :
    readMantissa false (ds ++ r) st =
      readMantissa false r
        ⟨st.sawdot, st.sawdigits || !ds.isEmpty, digitsValue ds st.mant,
          if st.sawdot then st.frac + ds.length else st.frac⟩ := by
  induction ds generalizing st with
  | nil => cases st; simp [digitsValue]
  | cons c cs ih =>
    simp only [List.all_cons, Bool.and_eq_true] at hds
    simp only [List.cons_append, readMantissa, digit_ne_underscore hds.1, digit_ne_dot hds.1,
      hds.1, if_false, if_true, List.append_eq]
    rw [ih _ hds.2]
    congr 1
    cases hsd : st.sawdot <;> simp [digitsValue, hsd]
    omega

theorem special_digit (c : Char) (cs : List Char) (hc : c.isDigit = true) :
    special (c :: cs) = none := by
  have h1 : c ≠ '+' := digit_ne_plus hc
  have h2 : c ≠ '-' := digit_ne_minus hc
  have h3 : c ≠ 'i' := by rintro rfl; revert hc; decide
  have h4 : c ≠ 'I' := by rintro rfl; revert hc; decide
  have h5 : c ≠ 'n' := by rintro rfl; revert hc; decide
  have h6 : c ≠ 'N' := by rintro rfl; revert hc; decide
  simp [special, h1, h2, h3, h4, h5, h6]

theorem underscoreLoop_digitsOrDots (l : List Char) (saw : Char) (hl : digitsOrDots l)
    (hsaw : saw ≠ '_') : underscoreLoop false l saw = true := by
  induction l generalizing saw with
  | nil => simp [underscoreLoop, hsaw]
  | cons c cs ih =>
    have hcs : digitsOrDots cs := fun x hx => hl x (List.mem_cons_of_mem _ hx)
    rcases hl c (List.mem_cons_self _ _) with hc | hc
    · simp only [underscoreLoop, hc, Bool.true_or, if_true]
      exact ih _ hcs (by decide)
    · subst hc
      simp only [underscoreLoop, dot_not_digit, Bool.false_and, Bool.or_false, if_false]
      rw [if_neg (by decide), if_neg hsaw]
      exact ih _ hcs (by decide)

theorem not_prefix_letter {c : Char} (hc : c.isDigit = true ∨ c = '.') :
    ¬ (c = 'b' ∨ c = 'B' ∨ c = 'o' ∨ c = 'O' ∨ c = 'x' ∨ c = 'X') := by
  rcases hc with hc | rfl
  · rintro (h | h | h | h | h | h) <;> subst h <;> revert hc <;> decide
  · decide

theorem underscoreOK_digitsOrDots (c : Char) (cs : List Char) (hc : c.isDigit = true)
    (hl : digitsOrDots (c :: cs)) : underscoreOK (c :: cs) = true := by
  have hb : ¬ (c = '-' ∨ c = '+') := by
    rintro (h | h)
    · exact digit_ne_minus hc h
    · exact digit_ne_plus hc h
  have hloop := underscoreLoop_digitsOrDots (c :: cs) '^' hl (by decide)
  simp only [underscoreOK, if_neg hb]
  split
  · rename_i x xs heq
    have hx : x.isDigit = true ∨ x = '.' := by
      have : x ∈ c :: cs := by rw [heq]; simp
      exact hl x this
    rw [if_neg (not_prefix_letter hx)]
    exact hloop
  · exact hloop

theorem hasHexPrefix_digitsOrDots (l : List Char) (hl : digitsOrDots l) :
    hasHexPrefix l = false := by
  rcases l with _ | ⟨a, _ | ⟨x, _ | ⟨y, t⟩⟩⟩
  · simp [hasHexPrefix]
  · simp [hasHexPrefix]
  · simp [hasHexPrefix]
  · have hx : x.isDigit = true ∨ x = '.' := hl x (by simp)
    have hn := not_prefix_letter hx
    have h1 : ¬ (x = 'x' ∨ x = 'X') := by tauto
    unfold hasHexPrefix
    split
    · rename_i heq
      simp only [List.cons.injEq] at heq
      rw [← heq.2.1]
      exact decide_eq_false h1
    · rfl
theorem readFloat_numeral (ip fp l : List Char) (hip : isDigits ip = true)
    (hfp : fp.all Char.isDigit = true)
    (hl : (fp = [] ∧ l = ip) ∨ (fp ≠ [] ∧ l = ip ++ '.' :: fp)) :
    special l = none ∧
      readFloat l = some ⟨false, false, digitsValue (ip ++ fp) 0, fp.length, 0⟩ := by
  simp only [isDigits, Bool.and_eq_true, Bool.not_eq_true', List.isEmpty_eq_false] at hip
  obtain ⟨hne, hall⟩ := hip
  have hdd : digitsOrDots l := by
    intro x hx
    rcases hl with ⟨_, rfl⟩ | ⟨_, rfl⟩
    · exact Or.inl (List.all_eq_true.1 hall x hx)
    · rcases List.mem_append.1 hx with h | h
      · exact Or.inl (List.all_eq_true.1 hall x h)
      · rcases List.mem_cons.1 h with h | h
        · exact Or.inr h
        · exact Or.inl (List.all_eq_true.1 hfp x h)
  obtain ⟨c, cs, rfl⟩ := List.exists_cons_of_ne_nil hne
  have hc : c.isDigit = true := by
    simp only [List.all_cons, Bool.and_eq_true] at hall; exact hall.1
  obtain ⟨rest, hrest⟩ : ∃ rest, l = c :: rest := by
    rcases hl with ⟨_, rfl⟩ | ⟨_, rfl⟩
    · exact ⟨cs, rfl⟩
    · exact ⟨cs ++ '.' :: fp, rfl⟩
  have hmant : readMantissa false l ⟨false, false, 0, 0⟩ =
      (⟨!fp.isEmpty, true, digitsValue (c :: cs ++ fp) 0, fp.length⟩, []) := by
    rcases hl with ⟨hf, rfl⟩ | ⟨hf, rfl⟩
    · subst hf
      have := readMantissa_digits (c :: cs) [] ⟨false, false, 0, 0⟩ hall
      simp only [List.append_nil] at this
      rw [this]
      simp [readMantissa]
    · rw [readMantissa_digits (c :: cs) ('.' :: fp) ⟨false, false, 0, 0⟩ hall]
      simp only [readMantissa, if_neg (show ¬ ('.' = '_') by decide), if_true]
      have := readMantissa_digits fp [] ⟨true, true, digitsValue (c :: cs) 0, 0⟩ hfp
      simp only [List.append_nil] at this
      simp only [Bool.false_eq_true, if_false, List.isEmpty_cons, Bool.not_false, Bool.or_true]
      rw [this]
      have hfe : fp.isEmpty = false := by
        cases fp with
        | nil => exact absurd rfl hf
        | cons _ _ => rfl
      simp only [readMantissa, hfe, Bool.not_false, Bool.or_true, if_true, Nat.zero_add]
      rw [digitsValue_append]
  have hsp : special l = none := by rw [hrest]; exact special_digit c rest hc
  refine ⟨hsp, ?_⟩
  have hb : ¬ (c = '+' ∨ c = '-') := by
    rintro (h | h)
    · exact digit_ne_plus hc h
    · exact digit_ne_minus hc h
  have hhex : hasHexPrefix l = false := hasHexPrefix_digitsOrDots l hdd
  have huo : underscoreOK l = true := by
    rw [hrest]; rw [hrest] at hdd; exact underscoreOK_digitsOrDots c rest hc hdd
  rw [hrest] at hmant hhex huo
  rw [hrest]
  simp only [readFloat, if_neg hb]
  simp only [hhex, Bool.false_eq_true, if_false, hmant, Bool.not_true,
    readExponent, huo, and_self, if_true, decide_eq_false (digit_ne_minus hc)]
theorem numeral_shape (s : String) (hn : isDecimalNumeral s = true) :
    isDigits (intPart s) = true ∧ (fracPart s).all Char.isDigit = true ∧
      ((fracPart s = [] ∧ s.data = intPart s) ∨
        (fracPart s ≠ [] ∧ s.data = intPart s ++ '.' :: fracPart s)) := by
  simp only [isDecimalNumeral, Bool.and_eq_true, Bool.or_eq_true, List.isEmpty_iff,
    beq_iff_eq] at hn
  obtain ⟨hip, hrest⟩ := hn
  have hsplit : s.data = intPart s ++ s.data.dropWhile Char.isDigit :=
    (List.takeWhile_append_dropWhile _ _).symm
  refine ⟨hip, ?_⟩
  rcases hrest with h | ⟨hhead, hfd⟩
  · have hf : fracPart s = [] := by simp [fracPart, h]
    refine ⟨by simp [hf], Or.inl ⟨hf, ?_⟩⟩
    rw [h, List.append_nil] at hsplit
    exact hsplit
  · have hfd2 := hfd
    simp only [isDigits, Bool.and_eq_true, Bool.not_eq_true', List.isEmpty_eq_false] at hfd2
    refine ⟨hfd2.2, Or.inr ⟨hfd2.1, ?_⟩⟩
    have : s.data.dropWhile Char.isDigit = '.' :: fracPart s := by
      unfold fracPart
      cases hd : s.data.dropWhile Char.isDigit with
      | nil => rw [hd] at hhead; simp at hhead
      | cons x xs =>
        rw [hd] at hhead
        simp only [List.head?_cons, Option.some.injEq] at hhead
        rw [hhead]; rfl
    rw [this] at hsplit
    exact hsplit

theorem parseFloat_numeral_eq (s : String) (hn : isDecimalNumeral s = true) :
    ParseFloat s =
      ((nearestFloat64 s).1, if (nearestFloat64 s).2 = true then some .ErrRange else none) := by
  obtain ⟨hip, hfp, hshape⟩ := numeral_shape s hn
  obtain ⟨hsp, hrf⟩ := readFloat_numeral (intPart s) (fracPart s) s.data hip hfp hshape
  simp only [ParseFloat, hsp, hrf, FloatLit.toFloat64, Bool.false_eq_true, if_false,
    nearestFloat64, numeralNum, numeralDen]
  by_cases hf : (fracPart s).length = 0
  · have hx : (0 : Int) ≤ 0 - ((fracPart s).length : Int) := by omega
    rw [if_pos hx]
    have hx2 : (0 - ((fracPart s).length : Int)).toNat = 0 := by omega
    rw [hx2, pow_zero, Nat.mul_one]
    simp only [hf, pow_zero]
  · have hx : ¬ ((0 : Int) ≤ 0 - ((fracPart s).length : Int)) := by omega
    rw [if_neg hx]
    have hx2 : (-(0 - ((fracPart s).length : Int))).toNat = (fracPart s).length := by omega
    rw [hx2]

theorem roundFloat64_finite (num den : Nat) (h : (roundFloat64 false num den).2 = false) :
    ∃ m e, (roundFloat64 false num den).1 = .finite false m e := by
  unfold roundFloat64 at h ⊢
  by_cases h0 : num = 0
  · rw [if_pos h0]
    exact ⟨0, 0, rfl⟩
  · rw [if_neg h0] at h ⊢
    dsimp only at h ⊢
    split_ifs at h ⊢
    · exact ⟨_, _, rfl⟩
    · exact ⟨_, _, rfl⟩

theorem floor_truncate_nonneg (m : Nat) (e : Int) :
    ∃ k : Nat, (Floor (.finite false m e)).truncate = some (k : Int) := by
  by_cases he : 0 ≤ e
  · exact ⟨m * 2 ^ e.toNat, by simp [Floor, Float64.truncate, he]⟩
  · exact ⟨m / 2 ^ (-e).toNat * 2 ^ 0, by simp [Floor, Float64.truncate, he]⟩

theorem floatToInt_numeral (a : Arch) (s : String) (h : NumeralInRange a s) :
    (ParseFloat s).2 = none ∧
      floatToInt a (Floor (ParseFloat s).1) = ((float64Floor s : Nat) : Int) := by
  obtain ⟨hn, hfin, hr⟩ := h
  rw [parseFloat_numeral_eq s hn]
  refine ⟨by simp [hfin], ?_⟩
  obtain ⟨m, e, hme⟩ := roundFloat64_finite _ _ hfin
  obtain ⟨k, hk⟩ := floor_truncate_nonneg m e
  have hfl : float64Floor s = k := by
    unfold float64Floor nearestFloat64
    rw [hme, hk]
    simp
  unfold nearestFloat64 at *
  simp only [floatToInt, hme, hk]
  rw [hfl] at hr ⊢
  have h3 : -(2 ^ (a.intSize - 1) : Int) ≤ (k : Int) := by
    have : (0 : Int) ≤ 2 ^ (a.intSize - 1) := by positivity
    omega
  have h4 : (k : Int) < (2 ^ (a.intSize - 1) : Int) := by exact_mod_cast hr
  rw [if_pos ⟨h3, h4⟩]

/-- For a decimal numeral of at most 15 digits the nearest `float64` is finite
and its floor is the floor of the numeral itself. -/
theorem float64Floor_eq_numeralFloor (s : String) (hn : isDecimalNumeral s = true)
    (hd : numeralDigitCount s ≤ 15) :
    (nearestFloat64 s).2 = false ∧ float64Floor s = numeralFloor s := by
  obtain ⟨hip, hfp, hshape⟩ := numeral_shape s hn
  have hipd : (intPart s).all Char.isDigit = true := by
    simp only [isDigits, Bool.and_eq_true] at hip; exact hip.2
  have hall : (intPart s ++ fracPart s).all Char.isDigit = true := by
    simp [List.all_append, hipd, hfp]
  have hM : digitsValue (intPart s ++ fracPart s) 0 + 1 < 2 ^ 53 := by
    have h1 := digitsValue_lt _ hall
    have h2 : 10 ^ (intPart s ++ fracPart s).length ≤ 10 ^ 15 := by
      apply Nat.pow_le_pow_right (by norm_num)
      simpa [numeralDigitCount] using hd
    have e1 : (10 : Nat) ^ 15 = 1000000000000000 := by norm_num
    have e2 : (2 : Nat) ^ 53 = 9007199254740992 := by norm_num
    omega
  have hdiv : digitsValue (intPart s ++ fracPart s) 0 / 10 ^ (fracPart s).length
      = numeralFloor s := by
    rw [digitsValue_append, digitsValue_acc]
    have h1 := digitsValue_lt _ hfp
    have hp : 0 < 10 ^ (fracPart s).length := Nat.pow_pos (by norm_num)
    unfold numeralFloor
    rw [Nat.mul_comm, Nat.mul_add_div hp, Nat.div_eq_of_lt h1, Nat.add_zero]
  obtain ⟨h1, h2⟩ := roundFloat64_small _ (10 ^ (fracPart s).length)
    (Nat.pow_pos (by norm_num)) hM
  refine ⟨h1, ?_⟩
  unfold float64Floor nearestFloat64 numeralNum numeralDen
  rw [h2, hdiv]
  simp

theorem numeralInRange_of_short (a : Arch) (s : String) (hn : isDecimalNumeral s = true)
    (hd : numeralDigitCount s ≤ 15) (hr : numeralFloor s < 2 ^ (a.intSize - 1)) :
    NumeralInRange a s := by
  obtain ⟨h1, h2⟩ := float64Floor_eq_numeralFloor s hn hd
  exact ⟨hn, h1, by rw [h2]; exact hr⟩
/-! ## The loop of `isCompatible` -/
theorem isCompatibleLoop_iff (a : Arch) (v : PluginVersion) (S U : Int)
    (hs : (ParseFloat v.IdeaVersion.SinceBuild).2 = none)
    (hS : floatToInt a (Floor (ParseFloat v.IdeaVersion.SinceBuild).1) = S)
    (hU : floatToInt a (Floor (ParseFloat
      (if TrimSuffix v.IdeaVersion.UntilBuild ".*" = "" then "999999"
        else TrimSuffix v.IdeaVersion.UntilBuild ".*")).1) = U)
    (l : List BuildRange) :
    isCompatibleLoop a v l = true ↔
      ∃ r ∈ l, (Atoi a r.SinceBuild).1 ≤ S ∧
        U ≤ (if r.UntilBuild ≠ "*" then (Atoi a r.UntilBuild).1 else 999999) := by
  induction l with
  | nil => simp [isCompatibleLoop]
  | cons r rest ih =>
    have hstep : isCompatibleLoop a v (r :: rest) =
        (if (decide (S ≥ (Atoi a r.SinceBuild).1) &&
            decide (U ≤ if r.UntilBuild ≠ "*" then (Atoi a r.UntilBuild).1 else 999999)) = true
          then true else isCompatibleLoop a v rest) := by
      simp only [isCompatibleLoop, hs, Option.isSome_none, Bool.false_eq_true, if_false, hS, hU]
    by_cases hc : (Atoi a r.SinceBuild).1 ≤ S ∧
        U ≤ (if r.UntilBuild ≠ "*" then (Atoi a r.UntilBuild).1 else 999999)
    · have hd : (decide (S ≥ (Atoi a r.SinceBuild).1) &&
          decide (U ≤ if r.UntilBuild ≠ "*" then (Atoi a r.UntilBuild).1 else 999999)) = true := by
        rw [Bool.and_eq_true, decide_eq_true_eq, decide_eq_true_eq]; exact hc
      rw [hstep, if_pos hd]
      exact iff_of_true rfl ⟨r, List.mem_cons_self _ _, hc⟩
    · have hd : ¬ ((decide (S ≥ (Atoi a r.SinceBuild).1) &&
          decide (U ≤ if r.UntilBuild ≠ "*" then (Atoi a r.UntilBuild).1 else 999999)) = true) := by
        rw [Bool.and_eq_true, decide_eq_true_eq, decide_eq_true_eq]; exact hc
      rw [hstep, if_neg hd, ih]
      constructor
      · rintro ⟨x, hx, hp⟩
        exact ⟨x, List.mem_cons_of_mem _ hx, hp⟩
      · rintro ⟨x, hx, hp⟩
        rcases List.mem_cons.1 hx with h | h
        · subst h; exact absurd hp hc
        · exact ⟨x, h, hp⟩

theorem numeral_not_suffix (s : String) (hn : isDecimalNumeral s = true) :
    ¬ ".*".data <:+ s.data := by
  intro hsuf
  obtain ⟨hip, hfp, hshape⟩ := numeral_shape s hn
  have hmem : '*' ∈ s.data := by
    obtain ⟨t, ht⟩ := hsuf
    rw [← ht]
    simp
  have hipd : (intPart s).all Char.isDigit = true := by
    simp only [isDigits, Bool.and_eq_true] at hip; exact hip.2
  have hdig : ∀ x ∈ s.data, x.isDigit = true ∨ x = '.' := by
    intro x hx
    rcases hshape with ⟨_, h⟩ | ⟨_, h⟩
    · rw [h] at hx; exact Or.inl (List.all_eq_true.1 hipd x hx)
    · rw [h] at hx
      rcases List.mem_append.1 hx with h1 | h1
      · exact Or.inl (List.all_eq_true.1 hipd x h1)
      · rcases List.mem_cons.1 h1 with h2 | h2
        · exact Or.inr h2
        · exact Or.inl (List.all_eq_true.1 hfp x h2)
  rcases hdig '*' hmem with h | h
  · revert h; decide
  · revert h; decide

theorem numeral_ne_empty (s : String) (hn : isDecimalNumeral s = true) : s ≠ "" := by
  rintro rfl
  revert hn; decide

theorem parseFloat_syntax_value (s : String) (h : (ParseFloat s).2 = some .ErrSyntax) :
    (ParseFloat s).1 = .finite false 0 0 := by
  unfold ParseFloat at h ⊢
  split at h
  · rename_i f n heq
    split at h
    · simp at h
    · rename_i hne
      simp only [heq, if_neg hne]
  · rename_i heq
    split at h
    · rename_i heq2; simp [heq, heq2]
    · rename_i l heq2
      simp only at h
      split at h <;> simp at h
theorem two_pow_intSize_pred_gt (a : Arch) : 999999 < 2 ^ (a.intSize - 1) := by
  rcases a.intSize_ok with h | h <;> rw [h] <;> norm_num

theorem floatToInt_sentinel (a : Arch) :
    floatToInt a (Floor (ParseFloat "999999").1) = 999999 := by
  have h1 : float64Floor "999999" = 999999 := by decide
  have h := floatToInt_numeral a "999999"
    ⟨by decide, by decide, by rw [h1]; exact two_pow_intSize_pred_gt a⟩
  rw [h.2, h1]; rfl

theorem floatToInt_zero (a : Arch) : floatToInt a (Floor (.finite false 0 0)) = 0 := by
  have h1 : (Floor (.finite false 0 0)).truncate = some 0 := by decide
  simp only [floatToInt, h1]
  have h3 : (0 : Int) < 2 ^ (a.intSize - 1) := by positivity
  rw [if_pos ⟨by omega, h3⟩]

theorem parseUintLoop_digits_err (maxVal : Nat) (l : List Char) (n : Nat)
    (hl : l.all Char.isDigit = true) :
    (parseUintLoop maxVal l n).2 ≠ some .ErrSyntax := by
  induction l generalizing n with
  | nil => simp [parseUintLoop]
  | cons c cs ih =>
    simp only [List.all_cons, Bool.and_eq_true] at hl
    simp only [parseUintLoop, hl.1, if_true]
    split
    · simp
    · split
      · simp
      · exact ih _ hl.2

theorem atoi_digits_nonneg (a : Arch) (s : String) (hd : isDigits s.data = true) :
    0 ≤ (Atoi a s).1 := by
  unfold Atoi
  cases hs : s.data with
  | nil => simp [hs, isDigits] at hd
  | cons c cs =>
    rw [hs] at hd
    simp only [isDigits, List.isEmpty_cons, Bool.not_false, Bool.true_and] at hd
    have hc : c.isDigit = true := by
      simp only [List.all_cons, Bool.and_eq_true] at hd; exact hd.1
    have hb : ¬ (c = '+' ∨ c = '-') := by
      rintro (h | h)
      · exact digit_ne_plus hc h
      · exact digit_ne_minus hc h
    have herr : (ParseUint a.intSize (c :: cs)).2 ≠ some .ErrSyntax := by
      simp only [ParseUint]
      exact parseUintLoop_digits_err _ _ _ hd
    have hpos : (1 : Int) ≤ 2 ^ (a.intSize - 1) := by
      have : (0 : Int) < 2 ^ (a.intSize - 1) := by positivity
      omega
    simp only [ParseInt, if_neg hb, decide_eq_false (digit_ne_minus hc)]
    rcases hpu : ParseUint a.intSize (c :: cs) with ⟨un, err⟩
    rw [hpu] at herr
    rcases err with _ | e
    · simp only [Bool.not_false, Bool.true_and, Bool.false_and, Bool.false_eq_true, if_false,
        decide_eq_true_eq]
      split
      · simp only [Nat.cast_pow, Nat.cast_ofNat]; omega
      · simp
    · cases e with
      | ErrSyntax => exact absurd rfl herr
      | ErrRange =>
        simp only [Bool.not_false, Bool.true_and, Bool.false_and, Bool.false_eq_true, if_false,
          decide_eq_true_eq]
        split
        · simp only [Nat.cast_pow, Nat.cast_ofNat]; omega
        · simp

theorem atoi_inRange (a : Arch) (s : String) (h : IntNumeralInRange a s) :
    (Atoi a s).1 = ((intNumeralValue s : Nat) : Int) := by
  rw [atoi_digits a s h.1 h.2]; rfl

/-- The verdict of `isCompatible` on candidates whose since-build is a decimal
numeral in range and targets whose bounds are integer numerals in range. -/
theorem isCompatible_iff_aux (a : Arch) (version : PluginVersion) (config : Config) (U : Nat)
    (hsince : NumeralInRange a version.IdeaVersion.SinceBuild)
    (hU : floatToInt a (Floor (ParseFloat
      (if TrimSuffix version.IdeaVersion.UntilBuild ".*" = "" then "999999"
        else TrimSuffix version.IdeaVersion.UntilBuild ".*")).1) = (U : Int))
    (htargets : ∀ r ∈ config.IntelliJ.Builds, IntNumeralInRange a r.SinceBuild ∧
      (r.UntilBuild = "*" ∨ IntNumeralInRange a r.UntilBuild)) :
    isCompatible a version config = true ↔
      ∃ r ∈ config.IntelliJ.Builds,
        targetSinceN r ≤ float64Floor version.IdeaVersion.SinceBuild ∧ U ≤ targetUntilN r := by
  obtain ⟨hs1, hs2⟩ := floatToInt_numeral a _ hsince
  unfold isCompatible extractBuildRange
  rw [isCompatibleLoop_iff a version _ _ hs1 hs2 hU]
  constructor
  · rintro ⟨r, hr, h1, h2⟩
    obtain ⟨hts, hu⟩ := htargets r hr
    refine ⟨r, hr, ?_, ?_⟩
    · rw [atoi_inRange a _ hts] at h1
      unfold targetSinceN
      exact_mod_cast h1
    · unfold targetUntilN
      by_cases hw : r.UntilBuild = "*"
      · rw [if_neg (not_not.2 hw)] at h2
        rw [if_pos hw]; exact_mod_cast h2
      · rcases hu with hu | hu
        · exact absurd hu hw
        · rw [if_pos hw, atoi_inRange a _ hu] at h2
          rw [if_neg hw]; exact_mod_cast h2
  · rintro ⟨r, hr, h1, h2⟩
    obtain ⟨hts, hu⟩ := htargets r hr
    refine ⟨r, hr, ?_, ?_⟩
    · rw [atoi_inRange a _ hts]
      unfold targetSinceN at h1
      exact_mod_cast h1
    · unfold targetUntilN at h2
      by_cases hw : r.UntilBuild = "*"
      · rw [if_pos hw] at h2
        rw [if_neg (not_not.2 hw)]; exact_mod_cast h2
      · rcases hu with hu | hu
        · exact absurd hu hw
        · rw [if_neg hw] at h2
          rw [if_pos hw, atoi_inRange a _ hu]; exact_mod_cast h2

/-- What the until-build of a candidate is converted to, when it is empty, `.*`,
a numeral in range or such a numeral followed by `.*`. -/
theorem candidateUntil_value (a : Arch) (u : String)
    (hu : u = "" ∨ u = ".*" ∨ NumeralInRange a u ∨ ∃ n, NumeralInRange a n ∧ u = n ++ ".*") :
    floatToInt a (Floor (ParseFloat
      (if TrimSuffix u ".*" = "" then "999999" else TrimSuffix u ".*")).1)
      = (candidateUntilFloat u : Int) := by
  have key : TrimSuffix u ".*" = "" ∨ NumeralInRange a (TrimSuffix u ".*") := by
    rcases hu with rfl | rfl | h | ⟨n, h, rfl⟩
    · left; decide
    · left; decide
    · right
      rw [trimSuffix_of_not_suffix _ _ (numeral_not_suffix u h.1)]; exact h
    · right
      rw [trimSuffix_append]; exact h
  unfold candidateUntilFloat
  rcases key with h | h
  · rw [if_pos h, if_pos h]
    exact floatToInt_sentinel a
  · have hne := numeral_ne_empty _ h.1
    rw [if_neg hne, if_neg hne]
    exact (floatToInt_numeral a _ h).2
theorem candidateUntilFloat_short (a : Arch) (u : String)
    (hu : u = "" ∨ u = ".*" ∨ ShortNumeral a u ∨ ∃ n, ShortNumeral a n ∧ u = n ++ ".*") :
    candidateUntilFloat u = candidateUntilN u := by
  have key : TrimSuffix u ".*" = "" ∨ ShortNumeral a (TrimSuffix u ".*") := by
    rcases hu with rfl | rfl | h | ⟨n, h, rfl⟩
    · left; decide
    · left; decide
    · right
      rw [trimSuffix_of_not_suffix _ _ (numeral_not_suffix u h.1)]; exact h
    · right
      rw [trimSuffix_append]; exact h
  unfold candidateUntilFloat candidateUntilN
  rcases key with h | h
  · rw [if_pos h, if_pos h]
  · have hne := numeral_ne_empty _ h.1
    rw [if_neg hne, if_neg hne]
    exact (float64Floor_eq_numeralFloor _ h.1 h.2.1).2

/-- On candidates whose bounds are decimal numerals of at most 15 digits the
verdict of `isCompatible` is the comparison of the exact floors: `isCompatible`
returns true if and only if some target range has
`targetSince <= floor(candidateSince)` and `candidateUntilN <= targetUntilN`. -/
theorem isCompatible_iff_exact (a : Arch) (version : PluginVersion) (config : Config)
    (hsince : ShortNumeral a version.IdeaVersion.SinceBuild)
    (huntil : version.IdeaVersion.UntilBuild = "" ∨ version.IdeaVersion.UntilBuild = ".*" ∨
      ShortNumeral a version.IdeaVersion.UntilBuild ∨
      ∃ n, ShortNumeral a n ∧ version.IdeaVersion.UntilBuild = n ++ ".*")
    (htargets : ∀ r ∈ config.IntelliJ.Builds, IntNumeralInRange a r.SinceBuild ∧
      (r.UntilBuild = "*" ∨ IntNumeralInRange a r.UntilBuild)) :
    isCompatible a version config = true ↔
      ∃ r ∈ config.IntelliJ.Builds,
        targetSinceN r ≤ numeralFloor version.IdeaVersion.SinceBuild ∧
          candidateUntilN version.IdeaVersion.UntilBuild ≤ targetUntilN r := by
  have hs := numeralInRange_of_short a _ hsince.1 hsince.2.1 hsince.2.2
  have hu : version.IdeaVersion.UntilBuild = "" ∨ version.IdeaVersion.UntilBuild = ".*" ∨
      NumeralInRange a version.IdeaVersion.UntilBuild ∨
      ∃ n, NumeralInRange a n ∧ version.IdeaVersion.UntilBuild = n ++ ".*" := by
    rcases huntil with h | h | h | ⟨n, h, hn⟩
    · exact Or.inl h
    · exact Or.inr (Or.inl h)
    · exact Or.inr (Or.inr (Or.inl (numeralInRange_of_short a _ h.1 h.2.1 h.2.2)))
    · exact Or.inr (Or.inr (Or.inr ⟨n, numeralInRange_of_short a _ h.1 h.2.1 h.2.2, hn⟩))
  rw [isCompatible_iff_aux a version config _ hs
    (candidateUntil_value a version.IdeaVersion.UntilBuild hu) htargets,
    (float64Floor_eq_numeralFloor _ hsince.1 hsince.2.1).2,
    candidateUntilFloat_short a _ huntil]

/-- Against a single target range `s`..`*`, a candidate whose until-build is a
decimal numeral of floor at most 999999 is compatible if and only if
`floor(candidateSince) >= s` (floors taken of the nearest `float64`, all within
the range of the machine `int`): up to 999999 the until-build of the candidate
imposes no constraint. -/
theorem isCompatible_wildcard_upto (a : Arch) (version : PluginVersion) (s : String)
    (plugins : List Plugin)
    (hs : IntNumeralInRange a s)
    (hsince : NumeralInRange a version.IdeaVersion.SinceBuild)
    (huntil : NumeralInRange a version.IdeaVersion.UntilBuild)
    (hle : float64Floor version.IdeaVersion.UntilBuild ≤ 999999) :
    isCompatible a version ⟨⟨[⟨s, "*"⟩]⟩, plugins⟩ = true ↔
      intNumeralValue s ≤ float64Floor version.IdeaVersion.SinceBuild := by
  have htr : TrimSuffix version.IdeaVersion.UntilBuild ".*" = version.IdeaVersion.UntilBuild :=
    trimSuffix_of_not_suffix _ _ (numeral_not_suffix _ huntil.1)
  have hne := numeral_ne_empty _ huntil.1
  have hcu : candidateUntilFloat version.IdeaVersion.UntilBuild
      = float64Floor version.IdeaVersion.UntilBuild := by
    unfold candidateUntilFloat
    rw [htr, if_neg hne]
  rw [isCompatible_iff_aux a version ⟨⟨[⟨s, "*"⟩]⟩, plugins⟩ _ hsince
    (candidateUntil_value a version.IdeaVersion.UntilBuild (Or.inr (Or.inr (Or.inl huntil))))
    (by
      intro r hr
      rw [List.mem_singleton] at hr
      subst hr
      exact ⟨hs, Or.inl rfl⟩)]
  simp only [List.mem_singleton, exists_eq_left, targetSinceN, targetUntilN, if_true, hcu]
  exact ⟨fun h => h.1, fun h => ⟨h, hle⟩⟩
/-! ## `filepath.Clean` and `filepath.Join` on plain elements -/

theorem isPlainElem_iff (e : String) : isPlainElem e = true ↔ PlainChars e.data := by
  simp [isPlainElem, PlainChars, and_assoc]

theorem takeWhile_plain (e t : List Char) (he : '/' ∉ e) (ht : t = [] ∨ t.head? = some '/') :
    (e ++ t).takeWhile (fun x => x != '/') = e ∧ (e ++ t).dropWhile (fun x => x != '/') = t := by
  induction e with
  | nil =>
    rcases ht with rfl | ht
    · simp
    · cases t with
      | nil => simp
      | cons x xs =>
        simp only [List.head?_cons, Option.some.injEq] at ht
        subst ht
        simp
  | cons c cs ih =>
    have hc : c ≠ '/' := fun h => he (h ▸ List.mem_cons_self _ _)
    have hcs : '/' ∉ cs := fun h => he (List.mem_cons_of_mem _ h)
    obtain ⟨h1, h2⟩ := ih hcs
    simp [List.takeWhile_cons, List.dropWhile_cons, hc, h1, h2]

theorem cleanLoop_step_plain (fuel : Nat) (e t out : List Char) (dotdot : Nat)
    (he : PlainChars e) (ht : t = [] ∨ t.head? = some '/') :
    cleanLoop false (fuel + 1) (e ++ t) out dotdot =
      cleanLoop false fuel t ((if out = [] then [] else out ++ ['/']) ++ e) dotdot := by
  obtain ⟨hne, hslash, hdot, hdotdot⟩ := he
  obtain ⟨c, cs, rfl⟩ := List.exists_cons_of_ne_nil hne
  have hc : c ≠ '/' := fun h => hslash (h ▸ List.mem_cons_self _ _)
  have hcs : '/' ∉ cs := fun h => hslash (List.mem_cons_of_mem _ h)
  have h2 : ¬ (c = '.' ∧ (cs ++ t = [] ∨ (cs ++ t).head? = some '/')) := by
    rintro ⟨rfl, h⟩
    cases cs with
    | nil => exact hdot rfl
    | cons x xs =>
      rcases h with h | h
      · simp at h
      · simp only [List.cons_append, List.head?_cons, Option.some.injEq] at h
        exact hcs (h ▸ List.mem_cons_self _ _)
  have h3 : ¬ (c = '.' ∧ (cs ++ t).head? = some '.' ∧
      ((cs ++ t).tail = [] ∨ (cs ++ t).tail.head? = some '/')) := by
    rintro ⟨rfl, hh, h⟩
    cases cs with
    | nil =>
      rcases ht with rfl | ht
      · simp at hh
      · simp only [List.nil_append] at hh
        rw [ht] at hh
        revert hh; decide
    | cons x xs =>
      simp only [List.cons_append, List.head?_cons, Option.some.injEq] at hh
      subst hh
      cases xs with
      | nil => exact hdotdot rfl
      | cons y ys =>
        rcases h with h | h
        · simp at h
        · simp only [List.cons_append, List.tail_cons, List.head?_cons, Option.some.injEq] at h
          exact hcs (h ▸ List.mem_cons_of_mem _ (List.mem_cons_self _ _))
  obtain ⟨htw, hdw⟩ := takeWhile_plain (c :: cs) t hslash ht
  have hout : (if (false && out.length != 1) || (!false && out.length != 0) then out ++ ['/']
      else out) = (if out = [] then [] else out ++ ['/']) := by
    cases out with
    | nil => simp
    | cons x xs => simp
  rw [List.cons_append] at htw hdw ⊢
  simp only [cleanLoop, if_neg hc, if_neg h2, if_neg h3, htw, hdw, hout]

theorem stringsJoin_cons_cons (sep e e2 : List Char) (es : List (List Char)) :
    stringsJoin sep (e :: e2 :: es) = e ++ sep ++ stringsJoin sep (e2 :: es) := rfl

theorem cleanLoop_plain (comps : List (List Char)) (hne : comps ≠ [])
    (hp : ∀ e ∈ comps, PlainChars e) (fuel : Nat) (out : List Char) (dotdot : Nat)
    (hf : (stringsJoin ['/'] comps).length ≤ fuel) :
    cleanLoop false fuel (stringsJoin ['/'] comps) out dotdot =
      (if out = [] then [] else out ++ ['/']) ++ stringsJoin ['/'] comps := by
  induction comps generalizing fuel out with
  | nil => exact absurd rfl hne
  | cons e es ih =>
    have he := hp e (List.mem_cons_self _ _)
    have hlen : 1 ≤ e.length := by
      rcases e with _ | ⟨c, cs⟩
      · exact absurd rfl he.1
      · simp
    cases es with
    | nil =>
      simp only [stringsJoin] at hf ⊢
      obtain ⟨f, rfl⟩ : ∃ f, fuel = f + 1 := ⟨fuel - 1, by omega⟩
      have := cleanLoop_step_plain f e [] out dotdot he (Or.inl rfl)
      rw [List.append_nil] at this
      rw [this]
      cases f <;> simp [cleanLoop]
    | cons e2 rest =>
      rw [stringsJoin_cons_cons] at hf ⊢
      simp only [List.length_append, List.length_singleton] at hf
      obtain ⟨f, rfl⟩ : ∃ f, fuel = f + 2 := ⟨fuel - 2, by omega⟩
      rw [List.append_assoc]
      rw [cleanLoop_step_plain (f + 1) e (['/'] ++ stringsJoin ['/'] (e2 :: rest)) out dotdot he
        (Or.inr rfl)]
      have hstep : ∀ o, cleanLoop false (f + 1) (['/'] ++ stringsJoin ['/'] (e2 :: rest)) o dotdot
          = cleanLoop false f (stringsJoin ['/'] (e2 :: rest)) o dotdot := by
        intro o
        simp [cleanLoop]
      rw [hstep]
      rw [ih (by simp) (fun x hx => hp x (List.mem_cons_of_mem _ hx)) f _ (by omega)]
      have hne2 : (if out = [] then [] else out ++ ['/']) ++ e ≠ [] := by
        intro h
        have := List.append_eq_nil.1 h
        exact he.1 this.2
      rw [if_neg hne2]
      simp [List.append_assoc]

theorem cleanChars_plain (comps : List (List Char)) (hne : comps ≠ [])
    (hp : ∀ e ∈ comps, PlainChars e) :
    cleanChars (stringsJoin ['/'] comps) = stringsJoin ['/'] comps := by
  obtain ⟨e, es, rfl⟩ := List.exists_cons_of_ne_nil hne
  have he := hp e (List.mem_cons_self _ _)
  obtain ⟨c, cs, rfl⟩ := List.exists_cons_of_ne_nil he.1
  have hc : c ≠ '/' := fun h => he.2.1 (h ▸ List.mem_cons_self _ _)
  obtain ⟨t, ht⟩ : ∃ t, stringsJoin ['/'] ((c :: cs) :: es) = c :: t := by
    cases es with
    | nil => exact ⟨cs, rfl⟩
    | cons e2 rest => exact ⟨cs ++ ['/'] ++ stringsJoin ['/'] (e2 :: rest), rfl⟩
  have hloop := cleanLoop_plain ((c :: cs) :: es) hne hp
    (stringsJoin ['/'] ((c :: cs) :: es)).length [] 0 (Nat.le_refl _)
  rw [ht] at hloop ⊢
  have hr : ((c :: t).head? == some '/') = false := by
    simp [hc]
  simp only [cleanChars, hr]
  simp only [Bool.false_eq_true, if_false, hloop, if_true, List.nil_append]
  simp
theorem plain_output : PlainChars "output".data := by
  refine ⟨by decide, by decide, by decide, by decide⟩

theorem plain_plugins : PlainChars "plugins".data := by
  refine ⟨by decide, by decide, by decide, by decide⟩

theorem outputDir_plain (id version : String) (hid : isPlainElem id = true)
    (hv : isPlainElem version = true) :
    downloadFile_outputDir id version = "output/plugins/" ++ id ++ "/" ++ version := by
  rw [isPlainElem_iff] at hid hv
  have hclean := cleanChars_plain ["output".data, "plugins".data, id.data, version.data]
    (by simp) (by
      intro e he
      simp only [List.mem_cons, List.mem_singleton, List.not_mem_nil, or_false] at he
      rcases he with rfl | rfl | rfl | rfl
      · exact plain_output
      · exact plain_plugins
      · exact hid
      · exact hv)
  unfold downloadFile_outputDir Join
  rw [if_pos (by decide)]
  simp only [List.map]
  rw [hclean]
  apply String.ext
  simp [stringsJoin, String.data_append]

theorem fileName_plain (id version : String) (hid : isPlainElem id = true)
    (hv : isPlainElem version = true) :
    PlainChars (downloadFile_fileName id version).data := by
  rw [isPlainElem_iff] at hid hv
  have hd : (downloadFile_fileName id version).data
      = id.data ++ ("-intellij-bin-".data ++ (version.data ++ ".zip".data)) := by
    simp [downloadFile_fileName, String.data_append]
  rw [hd]
  refine ⟨?_, ?_, ?_, ?_⟩
  · intro h
    exact hid.1 (List.append_eq_nil.1 h).1
  · intro h
    rcases List.mem_append.1 h with h | h
    · exact hid.2.1 h
    · rcases List.mem_append.1 h with h | h
      · revert h; decide
      · rcases List.mem_append.1 h with h | h
        · exact hv.2.1 h
        · revert h; decide
  · intro h
    have := congrArg List.length h
    simp at this
    omega
  · intro h
    have := congrArg List.length h
    simp at this
    omega

theorem filePath_plain (id version : String) (hid : isPlainElem id = true)
    (hv : isPlainElem version = true) :
    downloadFile_filePath id version =
      "output/" ++ ("plugins/" ++ id ++ "/" ++ version ++ "/" ++ id ++ "-intellij-bin-" ++
        version ++ ".zip") := by
  have hfn := fileName_plain id version hid hv
  have hod := outputDir_plain id version hid hv
  rw [isPlainElem_iff] at hid hv
  have hclean := cleanChars_plain
    ["output".data, "plugins".data, id.data, version.data, (downloadFile_fileName id version).data]
    (by simp) (by
      intro e he
      simp only [List.mem_cons, List.mem_singleton, List.not_mem_nil, or_false] at he
      rcases he with rfl | rfl | rfl | rfl | rfl
      · exact plain_output
      · exact plain_plugins
      · exact hid
      · exact hv
      · exact hfn)
  have hne : downloadFile_outputDir id version ≠ "" := by
    rw [hod]
    intro h
    have := congrArg String.data h
    simp [String.data_append] at this
  unfold downloadFile_filePath Join
  rw [if_pos hne]
  have hj : stringsJoin ['/'] (List.map String.data
      [downloadFile_outputDir id version, downloadFile_fileName id version])
      = stringsJoin ['/'] ["output".data, "plugins".data, id.data, version.data,
          (downloadFile_fileName id version).data] := by
    rw [hod]
    simp [stringsJoin, String.data_append]
  rw [hj, hclean]
  apply String.ext
  simp [stringsJoin, String.data_append, downloadFile_fileName]

theorem append_slash_inj (a b a2 b2 : List Char) (ha : '/' ∉ a) (ha2 : '/' ∉ a2)
    (h : a ++ '/' :: b = a2 ++ '/' :: b2) : a = a2 ∧ b = b2 := by
  have h1 := takeWhile_plain a ('/' :: b) ha (Or.inr rfl)
  have h2 := takeWhile_plain a2 ('/' :: b2) ha2 (Or.inr rfl)
  rw [h] at h1
  have e1 : a = a2 := by rw [← h1.1, h2.1]
  have e2 : '/' :: b = '/' :: b2 := by rw [← h1.2, h2.2]
  exact ⟨e1, (List.cons.inj e2).2⟩
/-! ## The walk of `GenerateIndexXML` -/

theorem walkPlugins_some (codec : Codec) (fs : FileSystem) (es : List WalkEntry)
    (acc plugins : List IdeaPlugin) (h : walkPlugins codec fs es acc = some plugins) :
    ∃ records : List PluginMetadata,
      (es.filter (fun e => e.name = "metadata.json")).map (fun e => readMetadata codec fs e.path)
        = records.map some ∧
      plugins = acc ++ records.map toIdeaPlugin := by
  induction es generalizing acc with
  | nil =>
    simp only [walkPlugins, Option.some.injEq] at h
    exact ⟨[], by simp, by simp [h]⟩
  | cons e es ih =>
    simp only [walkPlugins] at h
    split at h
    · exact absurd h (by simp)
    · split at h
      · rename_i hname
        split at h
        · exact absurd h (by simp)
        · rename_i metadata hread
          obtain ⟨records, h1, h2⟩ := ih _ h
          refine ⟨metadata :: records, ?_, ?_⟩
          · simp [List.filter_cons, hname, hread, h1]
          · simp [h2]
      · rename_i hname
        obtain ⟨records, h1, h2⟩ := ih _ h
        exact ⟨records, by simp [List.filter_cons, hname, h1], h2⟩

theorem walkPlugins_none (codec : Codec) (fs : FileSystem) (es : List WalkEntry)
    (acc : List IdeaPlugin)
    (h : ∃ e ∈ es, e.name = "metadata.json" ∧ readMetadata codec fs e.path = none) :
    walkPlugins codec fs es acc = none := by
  induction es generalizing acc with
  | nil =>
    obtain ⟨e, he, _⟩ := h
    exact absurd he (List.not_mem_nil _)
  | cons x xs ih =>
    obtain ⟨e, he, hname, hread⟩ := h
    simp only [walkPlugins]
    split
    · rfl
    · rcases List.mem_cons.1 he with rfl | hmem
      · rw [if_pos hname, hread]
      · split
        · split
          · rfl
          · exact ih _ ⟨e, hmem, hname, hread⟩
        · exact ih _ ⟨e, hmem, hname, hread⟩
/-! ## Claims on `isCompatible` -/

set_option maxRecDepth 20000 in
/-- C1 (as stated, refuted): the candidate with since-build
`242.99999999999999999999` and empty until-build, against the single target
range `243`..`*`, is in the domain of the claim (a decimal numeral with floor
242, an integer-numeral target), yet `isCompatible` accepts it although no
target range has `floor(candidateSince) >= targetSince`: the since-build is
parsed to the nearest `float64`, which is 243. -/
theorem isCompatible_iff_exists_range_counterexample :
    isDecimalNumeral "242.99999999999999999999" = true ∧
    numeralFloor "242.99999999999999999999" = 242 ∧
    isIntNumeral "243" = true ∧ intNumeralValue "243" = 243 ∧
    isCompatible amd64 ⟨"1.0", "", ⟨"242.99999999999999999999", ""⟩, ""⟩
      ⟨⟨[⟨"243", "*"⟩]⟩, []⟩ = true ∧
    ¬ ∃ r ∈ [(⟨"243", "*"⟩ : BuildRange)],
        targetSinceN r ≤ numeralFloor "242.99999999999999999999" ∧
          candidateUntilN "" ≤ targetUntilN r := by
  decide

/-- C1 (amended): for a candidate whose since-build is a decimal numeral and
whose until-build is empty, `.*`, a decimal numeral, or a decimal numeral
followed by `.*`, and for every list of target ranges (the empty list included)
whose since-build is a non-negative integer numeral and whose until-build is `*`
or a non-negative integer numeral, all within the range of the machine `int`,
`isCompatible` returns true if and only if some target range has
`targetSince <= floor(candidateSince)` and `candidateUntilN <= targetUntilN`,
the floor of a candidate bound being that of the `float64` nearest to the
numeral (the floor of the numeral itself when it has at most 15 digits, by
`float64Floor_eq_numeralFloor` and `isCompatible_iff_exact`). -/
theorem isCompatible_iff_exists_range (a : Arch) (version : PluginVersion) (config : Config)
    (hsince : NumeralInRange a version.IdeaVersion.SinceBuild)
    (huntil : version.IdeaVersion.UntilBuild = "" ∨ version.IdeaVersion.UntilBuild = ".*" ∨
      NumeralInRange a version.IdeaVersion.UntilBuild ∨
      ∃ n, NumeralInRange a n ∧ version.IdeaVersion.UntilBuild = n ++ ".*")
    (htargets : ∀ r ∈ config.IntelliJ.Builds, IntNumeralInRange a r.SinceBuild ∧
      (r.UntilBuild = "*" ∨ IntNumeralInRange a r.UntilBuild)) :
    isCompatible a version config = true ↔
      ∃ r ∈ config.IntelliJ.Builds,
        targetSinceN r ≤ float64Floor version.IdeaVersion.SinceBuild ∧
          candidateUntilFloat version.IdeaVersion.UntilBuild ≤ targetUntilN r :=
  isCompatible_iff_aux a version config _ hsince
    (candidateUntil_value a version.IdeaVersion.UntilBuild huntil) htargets

/-- C1, witness: the two scenarios of the specification. The candidate
`243.1`..`243.*` against the target `243`..`*` meets the hypotheses and is
compatible; the candidate `230`..`232` is not. -/
theorem isCompatible_iff_exists_range_witness :
    (isCompatible amd64 ⟨"1.0", "", ⟨"243.1", "243.*"⟩, ""⟩ ⟨⟨[⟨"243", "*"⟩]⟩, []⟩ = true ↔
      ∃ r ∈ [(⟨"243", "*"⟩ : BuildRange)],
        targetSinceN r ≤ float64Floor "243.1" ∧ candidateUntilFloat "243.*" ≤ targetUntilN r) ∧
    isCompatible amd64 ⟨"1.0", "", ⟨"243.1", "243.*"⟩, ""⟩ ⟨⟨[⟨"243", "*"⟩]⟩, []⟩ = true ∧
    isCompatible amd64 ⟨"1.0", "", ⟨"230", "232"⟩, ""⟩ ⟨⟨[⟨"243", "*"⟩]⟩, []⟩ = false :=
  ⟨isCompatible_iff_exists_range amd64 ⟨"1.0", "", ⟨"243.1", "243.*"⟩, ""⟩
      ⟨⟨[⟨"243", "*"⟩]⟩, []⟩
      ⟨by decide, by decide, by decide⟩
      (Or.inr (Or.inr (Or.inr ⟨"243", ⟨by decide, by decide, by decide⟩, by decide⟩)))
      (by
        intro r hr
        rw [List.mem_singleton] at hr
        subst hr
        exact ⟨⟨by decide, by decide⟩, Or.inl rfl⟩),
    by decide, by decide⟩

/-- C2: when the since-build of the candidate does not parse as a number
(`strconv.ParseFloat` returns an error), `isCompatible` returns false, whatever
the until-build and the target ranges. -/
theorem isCompatible_since_unparsable (a : Arch) (version : PluginVersion) (config : Config)
    (h : (ParseFloat version.IdeaVersion.SinceBuild).2 ≠ none) :
    isCompatible a version config = false :=
  isCompatibleLoop_since_error a version h _

/-- C2, witness: the three-part build `231.8109.175`, the empty string and `abc`
do not parse, and a candidate with such a since-build is incompatible even with
the range `0`..`*`. -/
theorem isCompatible_since_unparsable_witness :
    (ParseFloat "231.8109.175").2 = some .ErrSyntax ∧
    (ParseFloat "").2 = some .ErrSyntax ∧ (ParseFloat "abc").2 = some .ErrSyntax ∧
    isCompatible amd64 ⟨"1.0", "", ⟨"231.8109.175", ""⟩, ""⟩ ⟨⟨[⟨"0", "*"⟩]⟩, []⟩ = false ∧
    isCompatible amd64 ⟨"1.0", "", ⟨"", ""⟩, ""⟩ ⟨⟨[⟨"0", "*"⟩]⟩, []⟩ = false ∧
    isCompatible amd64 ⟨"1.0", "", ⟨"abc", ""⟩, ""⟩ ⟨⟨[⟨"0", "*"⟩]⟩, []⟩ = false :=
  ⟨by decide, by decide, by decide,
    isCompatible_since_unparsable amd64 ⟨"1.0", "", ⟨"231.8109.175", ""⟩, ""⟩
      ⟨⟨[⟨"0", "*"⟩]⟩, []⟩ (by decide),
    isCompatible_since_unparsable amd64 ⟨"1.0", "", ⟨"", ""⟩, ""⟩
      ⟨⟨[⟨"0", "*"⟩]⟩, []⟩ (by decide),
    isCompatible_since_unparsable amd64 ⟨"1.0", "", ⟨"abc", ""⟩, ""⟩
      ⟨⟨[⟨"0", "*"⟩]⟩, []⟩ (by decide)⟩

/-- C3 (defect of the code): the wildcard `*` of a target range is documented as
open-ended (`types.go`, `download.go`), and the claim asks that it be unbounded
above. Against the single target range `243`..`*` the candidate
`243`..`1000000` has `floor(candidateSince) >= 243`, yet `isCompatible` returns
false: the code compares the until-build of the candidate with the number
999999 it puts in place of `*`. The same candidate with the until-build
`999999` is accepted. -/
theorem isCompatible_wildcard_target_failing :
    isIntNumeral "243" = true ∧ isDecimalNumeral "243" = true ∧
    isDecimalNumeral "1000000" = true ∧
    intNumeralValue "243" ≤ numeralFloor "243" ∧
    isCompatible amd64 ⟨"1.0", "", ⟨"243", "1000000"⟩, ""⟩ ⟨⟨[⟨"243", "*"⟩]⟩, []⟩ = false ∧
    isCompatible amd64 ⟨"1.0", "", ⟨"243", "999999"⟩, ""⟩ ⟨⟨[⟨"243", "*"⟩]⟩, []⟩ = true := by
  decide

/-- C4: stripping the any-minor wildcard does not change the verdict. For every
string `u` that does not end in `.*`, `isCompatible` returns the same boolean
for the until-build `u ++ ".*"` and for the until-build `u`, whatever the
since-build and the target ranges. -/
theorem isCompatible_strip_any_minor (a : Arch) (ver url since desc u : String)
    (config : Config) (hu : ¬ ".*".data <:+ u.data) :
    isCompatible a ⟨ver, url, ⟨since, u ++ ".*"⟩, desc⟩ config
      = isCompatible a ⟨ver, url, ⟨since, u⟩, desc⟩ config := by
  unfold isCompatible
  apply isCompatibleLoop_congr
  · rfl
  · show TrimSuffix (u ++ ".*") ".*" = TrimSuffix u ".*"
    rw [trimSuffix_append, trimSuffix_of_not_suffix _ _ hu]

/-- C4, witness: the until-builds `243.*` and `243`. -/
theorem isCompatible_strip_any_minor_witness :
    isCompatible amd64 ⟨"1.0", "", ⟨"243.1", "243" ++ ".*"⟩, ""⟩ ⟨⟨[⟨"243", "*"⟩]⟩, []⟩
      = isCompatible amd64 ⟨"1.0", "", ⟨"243.1", "243"⟩, ""⟩ ⟨⟨[⟨"243", "*"⟩]⟩, []⟩ :=
  isCompatible_strip_any_minor amd64 "1.0" "" "243.1" "" "243" ⟨⟨[⟨"243", "*"⟩]⟩, []⟩
    (by decide)

set_option maxRecDepth 100000 in
set_option exponentiation.threshold 2000 in
/-- C10 (as stated, refuted): with the unparsable until-build `232.9921.47` and
the target range `0`..`*`, the candidate whose since-build is the decimal
numeral 2 followed by 308 zeros is rejected (the numeral overflows `float64`,
so `strconv.ParseFloat` returns an error) although its floor is at least 0; and
with the target range `244`..`*` the candidate whose since-build is
`243.99999999999999999999`, of floor 243, is accepted, the since-build being
parsed to the `float64` 244. -/
theorem isCompatible_unparsable_until_counterexample :
    TrimSuffix "232.9921.47" ".*" ≠ "" ∧
    (ParseFloat (TrimSuffix "232.9921.47" ".*")).2 = some .ErrSyntax ∧
    isDecimalNumeral (hugeNumeral '2') = true ∧
    (∃ r ∈ [(⟨"0", "*"⟩ : BuildRange)], targetSinceN r ≤ numeralFloor (hugeNumeral '2')) ∧
    isCompatible amd64 ⟨"1.0", "", ⟨hugeNumeral '2', "232.9921.47"⟩, ""⟩
      ⟨⟨[⟨"0", "*"⟩]⟩, []⟩ = false ∧
    isDecimalNumeral "243.99999999999999999999" = true ∧
    numeralFloor "243.99999999999999999999" = 243 ∧
    isCompatible amd64 ⟨"1.0", "", ⟨"243.99999999999999999999", "232.9921.47"⟩, ""⟩
      ⟨⟨[⟨"244", "*"⟩]⟩, []⟩ = true ∧
    ¬ ∃ r ∈ [(⟨"244", "*"⟩ : BuildRange)],
        targetSinceN r ≤ numeralFloor "243.99999999999999999999" := by
  decide

/-- C10 (amended): an unparsable until-build fails open. For every candidate
whose since-build is a decimal numeral within the range of the machine `int`,
and whose until-build, after one trailing `.*` is stripped, is non-empty and is
not syntactically a number, the until-build counts as 0: for every list of
target ranges whose since-build is a non-negative integer numeral in range and
whose until-build is `*` or a non-negative integer numeral, `isCompatible`
returns true if and only if some target range has
`floor(candidateSince) >= targetSince`, the floor being that of the `float64`
nearest to the since-build. -/
theorem isCompatible_unparsable_until (a : Arch) (version : PluginVersion) (config : Config)
    (hsince : NumeralInRange a version.IdeaVersion.SinceBuild)
    (hne : TrimSuffix version.IdeaVersion.UntilBuild ".*" ≠ "")
    (hsyn : (ParseFloat (TrimSuffix version.IdeaVersion.UntilBuild ".*")).2 = some .ErrSyntax)
    (htargets : ∀ r ∈ config.IntelliJ.Builds, IntNumeralInRange a r.SinceBuild ∧
      (r.UntilBuild = "*" ∨ isIntNumeral r.UntilBuild = true)) :
    isCompatible a version config = true ↔
      ∃ r ∈ config.IntelliJ.Builds,
        targetSinceN r ≤ float64Floor version.IdeaVersion.SinceBuild := by
  obtain ⟨hs1, hs2⟩ := floatToInt_numeral a _ hsince
  have hU : floatToInt a (Floor (ParseFloat
      (if TrimSuffix version.IdeaVersion.UntilBuild ".*" = "" then "999999"
        else TrimSuffix version.IdeaVersion.UntilBuild ".*")).1) = 0 := by
    rw [if_neg hne, parseFloat_syntax_value _ hsyn]
    exact floatToInt_zero a
  unfold isCompatible extractBuildRange
  rw [isCompatibleLoop_iff a version _ _ hs1 hs2 hU]
  constructor
  · rintro ⟨r, hr, h1, _⟩
    obtain ⟨hts, _⟩ := htargets r hr
    rw [atoi_inRange a _ hts] at h1
    exact ⟨r, hr, by unfold targetSinceN; exact_mod_cast h1⟩
  · rintro ⟨r, hr, h1⟩
    obtain ⟨hts, hu⟩ := htargets r hr
    refine ⟨r, hr, ?_, ?_⟩
    · rw [atoi_inRange a _ hts]
      unfold targetSinceN at h1
      exact_mod_cast h1
    · by_cases hw : r.UntilBuild = "*"
      · rw [if_neg (not_not.2 hw)]; norm_num
      · rcases hu with hu | hu
        · exact absurd hu hw
        · rw [if_pos hw]
          exact atoi_digits_nonneg a _ hu

/-- C10, witness: the candidate `243.1`..`232.9921.47` against the targets
`250`..`251` and `243`..`240`; the three-part until-build and `abc` are syntax
errors of `strconv.ParseFloat`. -/
theorem isCompatible_unparsable_until_witness :
    (ParseFloat "abc").2 = some .ErrSyntax ∧
    (isCompatible amd64 ⟨"1.0", "", ⟨"243.1", "232.9921.47"⟩, ""⟩
        ⟨⟨[⟨"250", "251"⟩, ⟨"243", "240"⟩]⟩, []⟩ = true ↔
      ∃ r ∈ [(⟨"250", "251"⟩ : BuildRange), ⟨"243", "240"⟩],
        targetSinceN r ≤ float64Floor "243.1") :=
  ⟨by decide,
    isCompatible_unparsable_until amd64 ⟨"1.0", "", ⟨"243.1", "232.9921.47"⟩, ""⟩
      ⟨⟨[⟨"250", "251"⟩, ⟨"243", "240"⟩]⟩, []⟩
      ⟨by decide, by decide, by decide⟩ (by decide) (by decide)
      (by
        intro r hr
        simp only [List.mem_cons, List.mem_singleton, List.not_mem_nil, or_false] at hr
        rcases hr with rfl | rfl
        · exact ⟨⟨by decide, by decide⟩, Or.inr (by decide)⟩
        · exact ⟨⟨by decide, by decide⟩, Or.inr (by decide)⟩)⟩

/-! ## Claims on index generation, the mirror layout and the orchestration -/

/-- C5: when index generation succeeds, every `metadata.json` the walk found was
read and parsed into a record, and the repository written to the output path
has, under its single category, exactly one entry per record, in walk order:
the entry list is as long as the record list and its i-th entry has the id,
name (= id), version, since-build, until-build and description of the i-th
record and the fixed vendor fields. -/
theorem generateIndexXML_entries (codec : Codec) (fs : FileSystem) (filePath : String)
    (h : (GenerateIndexXML codec fs filePath).1 = none) :
    ∃ (records : List PluginMetadata) (plugins : List IdeaPlugin),
      metadataRecords codec fs = records.map some ∧
      (GenerateIndexXML codec fs filePath).2 =
        fs.write filePath (codec.xmlEncode ⟨⟨"Programming Languages", plugins⟩⟩).1 ∧
      plugins.length = records.length ∧
      ∀ (i : Nat) (p : IdeaPlugin) (m : PluginMetadata),
        plugins[i]? = some p → records[i]? = some m →
          p.ID = m.ID ∧ p.Name = m.ID ∧ p.Version = m.Version ∧
          p.IdeaVersion.SinceBuild = m.SinceBuild ∧ p.IdeaVersion.UntilBuild = m.UntilBuild ∧
          p.Description = m.Description ∧
          p.Vendor.Email = "support@jetbrains.com" ∧
          p.Vendor.URL = "https://www.jetbrains.com" := by
  unfold GenerateIndexXML at h ⊢
  cases hw : walkPlugins codec fs (fs.walk "output/plugins") [] with
  | none => rw [hw] at h; exact absurd h (by simp)
  | some plugins =>
    rw [hw] at h
    simp only at h ⊢
    obtain ⟨records, h1, h2⟩ := walkPlugins_some codec fs _ _ _ hw
    rw [List.nil_append] at h2
    by_cases hc : (!fs.canCreate filePath) = true
    · rw [if_pos hc] at h; exact absurd h (by simp)
    · rw [if_neg hc] at h ⊢
      by_cases he : (codec.xmlEncode ⟨⟨"Programming Languages", plugins⟩⟩).2 = true
      · rw [if_pos he] at h; exact absurd h (by simp)
      · rw [if_neg he]
        refine ⟨records, plugins, h1, rfl, by rw [h2, List.length_map], ?_⟩
        intro i p m hp hm
        rw [h2, List.getElem?_map, hm] at hp
        simp only [Option.map_some', Option.some.injEq] at hp
        subst hp
        simp [toIdeaPlugin]

/-- C5, witness: the example mirror with a well-formed `metadata.json`. -/
theorem generateIndexXML_entries_witness :
    ∃ (records : List PluginMetadata) (plugins : List IdeaPlugin),
      metadataRecords exampleCodec (exampleFS "\x7b\"id\":\"X\",\"version\":\"1.0\"\x7d")
        = records.map some ∧
      (GenerateIndexXML exampleCodec (exampleFS "\x7b\"id\":\"X\",\"version\":\"1.0\"\x7d")
          "output/plugins/index.xml").2 =
        (exampleFS "\x7b\"id\":\"X\",\"version\":\"1.0\"\x7d").write "output/plugins/index.xml"
          (exampleCodec.xmlEncode ⟨⟨"Programming Languages", plugins⟩⟩).1 ∧
      plugins.length = records.length ∧
      ∀ (i : Nat) (p : IdeaPlugin) (m : PluginMetadata),
        plugins[i]? = some p → records[i]? = some m →
          p.ID = m.ID ∧ p.Name = m.ID ∧ p.Version = m.Version ∧
          p.IdeaVersion.SinceBuild = m.SinceBuild ∧ p.IdeaVersion.UntilBuild = m.UntilBuild ∧
          p.Description = m.Description ∧
          p.Vendor.Email = "support@jetbrains.com" ∧
          p.Vendor.URL = "https://www.jetbrains.com" :=
  generateIndexXML_entries exampleCodec (exampleFS "\x7b\"id\":\"X\",\"version\":\"1.0\"\x7d")
    "output/plugins/index.xml" (by decide)

/-- C6 (as stated, refuted): for the plugin id `.` and the version `1.0`,
`downloadFile` writes `output/plugins/1.0/.-intellij-bin-1.0.zip`
(`filepath.Join` drops the element `.`), which the server exposes as
`http://localhost:8080/plugins/1.0/.-intellij-bin-1.0.zip`, while the index
lists `http://localhost:8080/plugins/./1.0/.-intellij-bin-1.0.zip`; likewise the
version `..` makes `filepath.Join` leave the directory of the plugin. -/
theorem pluginURL_matches_filePath_counterexample :
    downloadFile_filePath "." "1.0" = "output/plugins/1.0/.-intellij-bin-1.0.zip" ∧
    pluginURL "." "1.0" = "http://localhost:8080/plugins/./1.0/.-intellij-bin-1.0.zip" ∧
    servedURL (downloadFile_filePath "." "1.0") ≠ some (pluginURL "." "1.0") ∧
    downloadFile_filePath "X" ".." = "output/plugins/X-intellij-bin-...zip" ∧
    pluginURL "X" ".." = "http://localhost:8080/plugins/X/../X-intellij-bin-...zip" ∧
    servedURL (downloadFile_filePath "X" "..") ≠ some (pluginURL "X" "..") := by
  decide

/-- C6 (amended): for every plugin id and version that are plain path elements
(non-empty, without `/`, neither `.` nor `..`), the artifact file `downloadFile`
writes is `output/plugins/<id>/<version>/<id>-intellij-bin-<version>.zip`, and
the URL `GenerateIndexXML` computes for the record is the URL under which the
server of the directory `output` exposes that file. -/
theorem pluginURL_matches_filePath (id version : String) (hid : isPlainElem id = true)
    (hv : isPlainElem version = true) :
    downloadFile_filePath id version =
      "output/plugins/" ++ id ++ "/" ++ version ++ "/" ++ id ++ "-intellij-bin-" ++ version ++
        ".zip" ∧
    servedURL (downloadFile_filePath id version) = some (pluginURL id version) := by
  have hfp := filePath_plain id version hid hv
  constructor
  · rw [hfp]
    apply String.ext
    simp [String.data_append]
  · rw [hfp]
    unfold servedURL pluginURL
    have hpre : "output/".data <+: ("output/" ++ ("plugins/" ++ id ++ "/" ++ version ++ "/" ++ id ++
        "-intellij-bin-" ++ version ++ ".zip")).data := by
      rw [String.data_append]
      exact List.prefix_append _ _
    rw [if_pos hpre, Option.some.injEq]
    apply String.ext
    simp [String.data_append]

/-- C6, witness: plugin `X`, version `1.0`. -/
theorem pluginURL_matches_filePath_witness :
    downloadFile_filePath "X" "1.0" =
      "output/plugins/" ++ "X" ++ "/" ++ "1.0" ++ "/" ++ "X" ++ "-intellij-bin-" ++ "1.0" ++
        ".zip" ∧
    servedURL (downloadFile_filePath "X" "1.0") = some (pluginURL "X" "1.0") :=
  pluginURL_matches_filePath "X" "1.0" (by decide) (by decide)

/-- C7 (as stated, refuted): the pairs (`a/b`, `c`) and (`a`, `b/c`) are
different and get the same directory `output/plugins/a/b/c`. -/
theorem outputDir_injective_counterexample :
    downloadFile_outputDir "a/b" "c" = "output/plugins/a/b/c" ∧
    downloadFile_outputDir "a" "b/c" = "output/plugins/a/b/c" ∧
    downloadFile_outputDir "a/b" "c" = downloadFile_outputDir "a" "b/c" ∧
    ¬ ("a/b" = "a" ∧ "c" = "b/c") := by
  decide

/-- C7 (amended): on plugin ids and versions that are plain path elements
(non-empty, without `/`, neither `.` nor `..`) the per-version output directory
`filepath.Join("output", "plugins", id, version)` is injective: equal
directories come from equal ids and equal versions. -/
theorem outputDir_injective (id1 v1 id2 v2 : String)
    (h1 : isPlainElem id1 = true) (hv1 : isPlainElem v1 = true)
    (h2 : isPlainElem id2 = true) (hv2 : isPlainElem v2 = true)
    (h : downloadFile_outputDir id1 v1 = downloadFile_outputDir id2 v2) :
    id1 = id2 ∧ v1 = v2 := by
  rw [outputDir_plain id1 v1 h1 hv1, outputDir_plain id2 v2 h2 hv2] at h
  have hd := congrArg String.data h
  simp only [String.data_append, List.append_assoc, List.append_cancel_left_eq] at hd
  rw [isPlainElem_iff] at h1 h2
  have := append_slash_inj id1.data v1.data id2.data v2.data h1.2.1 h2.2.1 hd
  exact ⟨String.ext this.1, String.ext this.2⟩

/-- C7, witness: two artifacts of plugin `X`, both with the version `1.0`. -/
theorem outputDir_injective_witness : "X" = "X" ∧ "1.0" = "1.0" :=
  outputDir_injective "X" "1.0" "X" "1.0" (by decide) (by decide) (by decide) (by decide) rfl

/-- C8: whatever the outcomes of the operations, `SyncPlugins` returns an error
if and only if creating the root mirror directory fails or the index generation
it then runs fails; and when the outcome of index generation is given (the same
in every state), replacing the catalog fetch and the artifact download by any
others leaves unchanged whether `SyncPlugins` returns an error. -/
theorem syncPlugins_error_iff {σ : Type} (env : SyncEnv σ) (a : Arch) (config : Config)
    (s : σ) :
    ((SyncPlugins env a config s).1 ≠ none ↔
      (env.MkdirAll "output/plugins" s).1 ≠ none ∨
      (env.GenerateIndexXML "output/plugins/index.xml"
        (downloadPlugins env a config config.Plugins (env.MkdirAll "output/plugins" s).2)).1
          ≠ none) ∧
    ∀ env2 : SyncEnv σ, env2.MkdirAll = env.MkdirAll →
      (∀ p s1 s2, (env2.GenerateIndexXML p s1).1 = (env.GenerateIndexXML p s2).1) →
      ((SyncPlugins env2 a config s).1 ≠ none ↔ (SyncPlugins env a config s).1 ≠ none) := by
  have hpath : Join ["output/plugins", "index.xml"] = "output/plugins/index.xml" := by decide
  have key : ∀ e : SyncEnv σ, ((SyncPlugins e a config s).1 ≠ none ↔
      (e.MkdirAll "output/plugins" s).1 ≠ none ∨
      (e.GenerateIndexXML "output/plugins/index.xml"
        (downloadPlugins e a config config.Plugins (e.MkdirAll "output/plugins" s).2)).1
          ≠ none) := by
    intro e
    unfold SyncPlugins
    rw [hpath]
    rcases hm : e.MkdirAll "output/plugins" s with ⟨merr, s1⟩
    cases merr with
    | some x => simp
    | none =>
      simp only
      rcases hg : e.GenerateIndexXML "output/plugins/index.xml"
        (downloadPlugins e a config config.Plugins s1) with ⟨gerr, s3⟩
      cases gerr with
      | some x => simp
      | none => simp
  refine ⟨key env, ?_⟩
  intro env2 hmk hgen
  rw [key env2, key env, hmk]
  rw [hgen "output/plugins/index.xml" _
    (downloadPlugins env a config config.Plugins (env.MkdirAll "output/plugins" s).2)]

/-- C8, witness: with the catalog fetch failing (HTTP 500) and with it
succeeding, the downloads failing or not, `SyncPlugins` returns nil as long as
the directory creation and the index generation succeed, and an error when the
index generation fails. -/
theorem syncPlugins_error_iff_witness :
    (SyncPlugins (exampleEnv true false false true) amd64
      ⟨⟨[⟨"243", "*"⟩]⟩, [⟨"X", []⟩]⟩ []).1 = none ∧
    (SyncPlugins (exampleEnv true true false true) amd64
      ⟨⟨[⟨"243", "*"⟩]⟩, [⟨"X", []⟩]⟩ []).1 = none ∧
    (SyncPlugins (exampleEnv true true true false) amd64
      ⟨⟨[⟨"243", "*"⟩]⟩, [⟨"X", []⟩]⟩ []).1 ≠ none ∧
    ((SyncPlugins (exampleEnv true true true true) amd64
        ⟨⟨[⟨"243", "*"⟩]⟩, [⟨"X", []⟩]⟩ []).1 ≠ none ↔
      (SyncPlugins (exampleEnv true false false true) amd64
        ⟨⟨[⟨"243", "*"⟩]⟩, [⟨"X", []⟩]⟩ []).1 ≠ none) :=
  ⟨by decide, by decide, by decide,
    (syncPlugins_error_iff (exampleEnv true false false true) amd64
      ⟨⟨[⟨"243", "*"⟩]⟩, [⟨"X", []⟩]⟩ []).2 (exampleEnv true true true true) rfl
      (fun _ _ _ => rfl)⟩

/-- C9: index generation is atomic with respect to bad metadata. When some
`metadata.json` found by the walk cannot be read or does not parse,
`GenerateIndexXML` returns an error and leaves the file system, and so the file
at the output path, exactly as it was. -/
theorem generateIndexXML_bad_metadata (codec : Codec) (fs : FileSystem) (filePath : String)
    (h : ∃ e ∈ fs.walk "output/plugins",
      e.name = "metadata.json" ∧ readMetadata codec fs e.path = none) :
    (GenerateIndexXML codec fs filePath).1 ≠ none ∧
      (GenerateIndexXML codec fs filePath).2 = fs := by
  unfold GenerateIndexXML
  rw [walkPlugins_none codec fs _ [] h]
  exact ⟨by simp, rfl⟩

/-- C9, witness: the example mirror with a malformed `metadata.json`; the older
`index.xml` keeps its content. -/
theorem generateIndexXML_bad_metadata_witness :
    (GenerateIndexXML exampleCodec (exampleFS "not json") "output/plugins/index.xml").1 ≠ none ∧
      (GenerateIndexXML exampleCodec (exampleFS "not json") "output/plugins/index.xml").2
        = exampleFS "not json" :=
  generateIndexXML_bad_metadata exampleCodec (exampleFS "not json") "output/plugins/index.xml"
    ⟨⟨"output/plugins/X/1.0/metadata.json", "metadata.json", none⟩, by decide, by decide,
      by decide⟩

end JetbrainsOffline
